import Mathlib

/-!
Verification of the scheduler model in `misc/scheduler-model/graph.py`.

The Python file is a sketch (it does not run as-is: it writes `false` for
`False`, omits `self.` receivers, and calls `heapq.push` / `deque.push`
for `heapq.heappush` / `deque.append`).  The embedding below renders the
evident algorithm of the file:

* nodes and edges are stored in two flat lists and referred to by index;
  `Node.in_edge` is the index of the producing edge, `Edge.inputs` and
  `Edge.outputs` are lists of node indices;
* the mutable fields (`Edge.priority`, `Node.ready`) become explicit state
  (`RState.priority`, `PlanState.nodeReady`) threaded through the loops;
* the unbounded `while` loops of `compute_priority_critical_time` and
  `Plan.execute` are given an explicit fuel parameter and return `none`
  when the fuel runs out, so non-termination of the source is visible as
  `∀ fuel, … = none`;
* `EdgePriorityQueue` (a `heapq` max-queue via the priority comparison) is
  modelled as a list kept sorted by descending priority: `push` inserts in
  order, `pop` takes the head.  This realises exactly the heap's contract
  (pop returns an edge of maximal priority); for equal priorities the heap
  leaves the order unspecified and so does no claim below.
-/

set_option maxHeartbeats 1000000

/-- A node: `in_edge` is the index of the edge producing it, if any.
The `name` field of the source is opaque to the engine and the mutable
`ready` flag lives in `PlanState.nodeReady`. -/
structure Node where
  in_edge : Option Nat
deriving DecidableEq

/-- An edge (work item); `inputs`/`outputs` hold node indices.  The mutable
`priority` field of the source lives in `RState.priority`. -/
structure Edge where
  inputs : List Nat
  outputs : List Nat
  run_time_ms : Option Nat
  actual_run_time_ms : Nat
  id : Nat
deriving DecidableEq

/-- Default edge used for out-of-range index lookups (the source would
raise; all theorems below restrict attention to in-range indices). -/
def emptyEdge : Edge := ⟨[], [], none, 0, 0⟩

structure Graph where
  nodes : List Node
  edges : List Edge

def Graph.edgeAt (g : Graph) (e : Nat) : Edge := g.edges.getD e emptyEdge

def Graph.nodeAt (g : Graph) (n : Nat) : Node := g.nodes.getD n ⟨none⟩

def Graph.numEdges (g : Graph) : Nat := g.edges.length

/-- `run_time_or_default` of `compute_priority_critical_time` (lines 121-123). -/
def run_time_or_default (g : Graph) (d : Nat) (e : Nat) : Nat :=
  match (g.edgeAt e).run_time_ms with
  | some t => t
  | none => d

/-- Well-formed graph: input node indices and producing-edge indices in range. -/
def WF (g : Graph) : Prop :=
  (∀ e ∈ g.edges, ∀ n ∈ e.inputs, n < g.nodes.length) ∧
  (∀ nd ∈ g.nodes, ∀ p, nd.in_edge = some p → p < g.edges.length)

/-- `consumesB g c p` holds when edge `c` has an input node produced by edge
`p`, i.e. `p` must run before `c`. -/
def consumesB (g : Graph) (c p : Nat) : Bool :=
  (g.edgeAt c).inputs.any fun n => (g.nodeAt n).in_edge == some p

def Consumes (g : Graph) (c p : Nat) : Prop := consumesB g c p = true

/-- Acyclic dependency graph: no edge is reachable from itself by following
input nodes' producing edges. -/
def Acyclic (g : Graph) : Prop := ∀ e, ¬ Relation.TransGen (Consumes g) e e

/-! ### The worklist relaxation (`compute_priority_critical_time`, lines 116-151) -/

/-- State of the relaxation: the priorities of all edges, the worklist
(`deque`, head = left end) and the mirroring active set. -/
structure RState where
  priority : Nat → Nat
  queue : List Nat
  active : List Nat

/-- Body of the `for n in edge.inputs` loop (lines 132-146): `cur` is the
edge just removed from the worklist.  (In the source the candidate is
written `e.priority`; `e` can only denote the edge being processed — the
initialisation loop variable of line 125 is not part of the algorithm, as
the file's own comment at line 148 on critical times confirms.) -/
def processInput (g : Graph) (d : Nat) (cur : Nat) (st : RState) (n : Nat) : RState :=
  match (g.nodeAt n).in_edge with
  | none => st
  | some p =>
    let proposed := st.priority cur + run_time_or_default g d p
    if proposed ≤ st.priority p then st
    else
      let priority' := fun x => if x = p then proposed else st.priority x
      if p ∈ st.active then { st with priority := priority' }
      else { priority := priority', queue := st.queue ++ [p], active := p :: st.active }

def processEdge (g : Graph) (d : Nat) (cur : Nat) (st : RState) : RState :=
  (g.edgeAt cur).inputs.foldl (processInput g d cur) st

/-- The `while len(work_queue) > 0` loop (lines 128-146), with fuel. -/
def relaxLoop (g : Graph) (d : Nat) : Nat → RState → Option RState
  | 0, st => if st.queue = [] then some st else none
  | fuel+1, st =>
    match st.queue with
    | [] => some st
    | cur :: rest =>
      relaxLoop g d fuel
        (processEdge g d cur { priority := st.priority, queue := rest, active := st.active.erase cur })

/-- Initial state (lines 118-126): worklist and active set hold every edge,
every edge's priority is its runtime-or-default. -/
def relaxInit (g : Graph) (d : Nat) : RState :=
  { priority := fun e => run_time_or_default g d e,
    queue := List.range g.numEdges,
    active := List.range g.numEdges }

/-- `max(e.id for e in edges)` (line 149); `0` for the empty graph where the
source would raise. -/
def maxId (g : Graph) : Nat := (g.edges.map Edge.id).foldr max 0

/-- `compute_priority_critical_time` (lines 116-151): run the relaxation,
then fold in the id tie-break (lines 148-151). -/
def compute_priority_critical_time (g : Graph) (d : Nat) (fuel : Nat) : Option (Nat → Nat) :=
  (relaxLoop g d fuel (relaxInit g d)).map fun st =>
    fun e => st.priority e * (maxId g + 1) + (maxId g - (g.edgeAt e).id)

/-! ### `p75_runtime` (lines 104-113) -/

/-- `p75_runtime` (lines 104-113); `list.sort()` is rendered by insertion
sort, which produces the ascending reordering the source produces. -/
def p75_runtime (edges : List Edge) : Nat :=
  let available_run_times := edges.filterMap Edge.run_time_ms
  if available_run_times.length = 0 then 1
  else
    let s := List.insertionSort (· ≤ ·) available_run_times
    let n := available_run_times.length
    s.getD ((n - 1) - n / 4) 0

/-! ### The `Plan` (lines 43-64) -/

/-- Mutable plan state: the nodes' `ready` flags and the ready queue,
kept sorted by descending priority (see the header note on `heapq`). -/
structure PlanState where
  nodeReady : Nat → Bool
  ready : List Nat

/-- `Edge.all_inputs_ready` (lines 20-21). -/
def all_inputs_ready (g : Graph) (nodeReady : Nat → Bool) (e : Nat) : Bool :=
  (g.edgeAt e).inputs.all fun n => nodeReady n

/-- `waiting_for[n]` as built by `Plan.__init__` (lines 52-54): every edge
listing `n` among its inputs, in edge order, once per occurrence. -/
def waiting_for (g : Graph) (n : Nat) : List Nat :=
  (List.range g.numEdges).flatMap fun e =>
    (((g.edgeAt e).inputs.filter fun m => m == n).map fun _ => e)

/-- `EdgePriorityQueue.push` (lines 32-33): insert keeping the list sorted
by descending priority. -/
def epqPush (pr : Nat → Nat) (q : List Nat) (e : Nat) : List Nat :=
  match q with
  | [] => [e]
  | x :: xs => if pr x < pr e then e :: x :: xs else x :: epqPush pr xs e

/-- One output node's worth of `edge_finished` (lines 60-64): set `n.ready`,
then push every waiting edge whose inputs are all ready. -/
def markNode (g : Graph) (pr : Nat → Nat) (st : PlanState) (n : Nat) : PlanState :=
  let st' : PlanState := { st with nodeReady := fun m => if m = n then true else st.nodeReady m }
  (waiting_for g n).foldl
    (fun s e => if all_inputs_ready g s.nodeReady e then { s with ready := epqPush pr s.ready e } else s)
    st'

/-- `Plan.edge_finished` (lines 59-64). -/
def edge_finished (g : Graph) (pr : Nat → Nat) (st : PlanState) (e : Nat) : PlanState :=
  (g.edgeAt e).outputs.foldl (markNode g pr) st

/-- `Plan.__init__` (lines 48-54): all `ready` flags start false (line 8) and
the ready queue starts empty (line 50); the constructor builds `waiting_for`
(a pure function of the graph here) and pushes nothing into the queue. -/
def planInit : PlanState :=
  { nodeReady := fun _ => false, ready := [] }

/-- `Plan.find_work` (lines 56-57). -/
def find_work (st : PlanState) : Option Nat := st.ready.head?

/-- A plan run: construction followed by a sequence of `edge_finished` calls. -/
def planRun (g : Graph) (pr : Nat → Nat) (fs : List Nat) : PlanState :=
  fs.foldl (edge_finished g pr) planInit

/-! ### `Plan.execute` (lines 66-101) -/

def Graph.actualAt (g : Graph) (e : Nat) : Nat := (g.edgeAt e).actual_run_time_ms

/-- State of the simulation loop: slot contents, slot completion times, the
virtual clock and the start-time record in assignment order (the source's
dict keyed by edge; a later write to the same key would overwrite, and the
trace keeps every write visible). -/
structure ExecState where
  plan : PlanState
  activeEdges : List (Option Nat)
  completion : List (Option Nat)
  current_time : Nat
  start_times : List (Nat × Nat)

/-- The assignment loop (lines 76-83): scan the slots in order, fill each
idle slot from the ready queue, stop at the first empty pop (`break`). -/
def assignSlots (g : Graph) (st : ExecState) : List Nat → ExecState
  | [] => st
  | i :: rest =>
    match st.activeEdges.getD i none with
    | some _ => assignSlots g st rest
    | none =>
      match st.plan.ready with
      | [] => st
      | e :: q =>
        assignSlots g
          { plan := { st.plan with ready := q },
            activeEdges := st.activeEdges.set i (some e),
            completion := st.completion.set i (some (st.current_time + g.actualAt e)),
            current_time := st.current_time,
            start_times := st.start_times ++ [(e, st.current_time)] } rest

def execAssign (g : Graph) (nj : Nat) (st : ExecState) : ExecState :=
  assignSlots g st (List.range nj)

/-- The stop condition (line 86). -/
def execDone (st : ExecState) : Bool := st.activeEdges.all fun o => o.isNone

/-- `min(t for t in completion_time if t is not None)` (line 90). -/
def minSome (l : List (Option Nat)) : Option Nat :=
  l.foldr
    (fun o acc =>
      match o, acc with
      | none, a => a
      | some v, none => some v
      | some v, some w => some (min v w)) none

/-- The clock advance (line 90); where the source would raise on an empty
minimum the clock is left unchanged (unreachable from in-sync states). -/
def execAdvance (st : ExecState) : ExecState :=
  { st with current_time := (minSome st.completion).getD st.current_time }

/-- The completion loop (lines 93-99). -/
def completeSlots (g : Graph) (pr : Nat → Nat) (st : ExecState) : List Nat → ExecState
  | [] => st
  | i :: rest =>
    if st.completion.getD i none = some st.current_time then
      completeSlots g pr
        { st with
          plan :=
            (match st.activeEdges.getD i none with
             | some e => edge_finished g pr st.plan e
             | none => st.plan),
          activeEdges := st.activeEdges.set i none,
          completion := st.completion.set i none } rest
    else completeSlots g pr st rest

def execComplete (g : Graph) (pr : Nat → Nat) (nj : Nat) (st : ExecState) : ExecState :=
  completeSlots g pr st (List.range nj)

/-- The `while True` loop of `Plan.execute` (lines 72-99), with fuel. -/
def executeLoop (g : Graph) (pr : Nat → Nat) (nj : Nat) : Nat → ExecState → Option (List (Nat × Nat))
  | 0, _ => none
  | fuel+1, st =>
    let a := execAssign g nj st
    if execDone a then some a.start_times
    else executeLoop g pr nj fuel (execComplete g pr nj (execAdvance a))

/-- `Plan.execute` (lines 66-101) on a freshly constructed plan. -/
def execute (g : Graph) (pr : Nat → Nat) (nj fuel : Nat) : Option (List (Nat × Nat)) :=
  executeLoop g pr nj fuel
    { plan := planInit,
      activeEdges := List.replicate nj none,
      completion := List.replicate nj none,
      current_time := 0,
      start_times := [] }

/-! ### Critical times as longest chains (spec §4.2) -/

/-- A chain of work starting at `e`: `e` followed by a consumer of `e`, a
consumer of that consumer, and so on. -/
def ChainFrom (g : Graph) (e : Nat) (ch : List Nat) : Prop :=
  ch.head? = some e ∧ List.Chain' (fun a b => Consumes g b a) ch

def chainWeight (g : Graph) (d : Nat) (ch : List Nat) : Nat :=
  (ch.map (run_time_or_default g d)).sum

/-- `w` is the critical time of `e`: the greatest total duration of a chain
of work starting at `e`. -/
def IsCriticalTime (g : Graph) (d : Nat) (e : Nat) (w : Nat) : Prop :=
  (∃ ch, ChainFrom g e ch ∧ chainWeight g d ch = w) ∧
  (∀ ch, ChainFrom g e ch → chainWeight g d ch ≤ w)

/-- Loop invariant of the worklist relaxation: every priority is realized
by an actual chain of work; every inactive edge already satisfies its
relaxation inequalities; the active set mirrors the worklist, both
duplicate-free. -/
structure RelaxInv (g : Graph) (d : Nat) (st : RState) : Prop where
  realized : ∀ e, ∃ ch, ChainFrom g e ch ∧ chainWeight g d ch = st.priority e
  fixed : ∀ c, c ∉ st.active → ∀ p, Consumes g c p →
    st.priority c + run_time_or_default g d p ≤ st.priority p
  actq : ∀ x, x ∈ st.active ↔ x ∈ st.queue
  qnd : st.queue.Nodup
  and : st.active.Nodup

/-- A potential bounds every edge's runtime-or-default from above and is
compatible with the relaxation inequalities; on an acyclic well-formed
graph the critical times form one, and any potential bounds the
priorities throughout the relaxation. -/
def IsPotential (g : Graph) (d : Nat) (B : Nat → Nat) : Prop :=
  (∀ e, run_time_or_default g d e ≤ B e) ∧
  (∀ c p, Consumes g c p → B c + run_time_or_default g d p ≤ B p)

/-- Termination measure of the relaxation: total slack below the potential
plus the worklist length. -/
def relaxMeasure (g : Graph) (B : Nat → Nat) (st : RState) : Nat :=
  ((Finset.range g.numEdges).sum fun e => B e - st.priority e) + st.queue.length

/-- Invariant of a plan run after the nodes in `ms` have been marked ready:
a node's flag is set exactly when it was marked, and an edge sits in the
ready queue exactly once when it is a real edge with a non-empty input
list all of whose inputs have been marked — and never more than once. -/
def PlanInv (g : Graph) (st : PlanState) (ms : List Nat) : Prop :=
  (∀ n, st.nodeReady n = true ↔ n ∈ ms) ∧
  (∀ e, st.ready.count e =
    if e < g.numEdges ∧ (g.edgeAt e).inputs ≠ [] ∧ ∀ n ∈ (g.edgeAt e).inputs, n ∈ ms
    then 1 else 0)

/-- The nodes marked ready over a run: the outputs of the finished edges,
in order. -/
def marksOf (g : Graph) (fs : List Nat) : List Nat :=
  fs.flatMap fun e => (g.edgeAt e).outputs

/-- Graph well-formedness used by the simulator invariants: duplicate-free
input and output lists, and no node produced by two distinct edges. -/
def GoodGraph (g : Graph) : Prop :=
  (∀ e, e < g.numEdges → (g.edgeAt e).inputs.Nodup) ∧
  (∀ e, e < g.numEdges → (g.edgeAt e).outputs.Nodup) ∧
  (∀ e1 e2, e1 < g.numEdges → e2 < g.numEdges → e1 ≠ e2 →
    ∀ n, n ∈ (g.edgeAt e1).outputs → n ∉ (g.edgeAt e2).outputs)

/-- Invariant of `Plan.execute`'s loop: slot lists have the configured
length; every pending completion time is no earlier than the clock; every
recorded start time is no later than the clock and the record is
non-decreasing; and a ledger ties the ready queue, the running slots and
the finished edges together so that every edge is started at most once. -/
def ExecInv (g : Graph) (nj : Nat) (st : ExecState) : Prop :=
  st.activeEdges.length = nj ∧
  st.completion.length = nj ∧
  (∀ o ∈ st.completion, ∀ v, o = some v → st.current_time ≤ v) ∧
  (∀ q ∈ st.start_times, q.2 ≤ st.current_time) ∧
  (st.start_times.map Prod.snd).Pairwise (· ≤ ·) ∧
  ∃ fin : List Nat,
    (∀ n, st.plan.nodeReady n = true ↔ n ∈ marksOf g fin) ∧
    (marksOf g fin).Nodup ∧
    (∀ e, st.plan.ready.count e + (st.start_times.map Prod.fst).count e =
      if e < g.numEdges ∧ (g.edgeAt e).inputs ≠ [] ∧
          ∀ n ∈ (g.edgeAt e).inputs, n ∈ marksOf g fin
      then 1 else 0) ∧
    (∀ e, (st.start_times.map Prod.fst).count e =
      st.activeEdges.count (some e) + fin.count e)

/-! ### Concrete graphs used as test inputs -/

/-- The linear chain A→B→C of spec §8: edge `i` produces node `i`, edge 1
consumes node 0, edge 2 consumes node 1; runtimes 10, 20, 30. -/
def gChain : Graph :=
  { nodes := [⟨some 0⟩, ⟨some 1⟩, ⟨some 2⟩],
    edges :=
      [ ⟨[], [0], some 10, 10, 0⟩,
        ⟨[0], [1], some 20, 20, 1⟩,
        ⟨[1], [2], some 30, 30, 2⟩ ] }

/-- A one-edge cycle: edge 0 consumes node 0, which edge 0 itself produces. -/
def gCyc : Graph := { nodes := [⟨some 0⟩], edges := [⟨[0], [0], some 10, 10, 0⟩] }

/-- Edge 0 (no inputs) produces node 0; edge 1 consumes node 0. -/
def gTwo : Graph := { nodes := [⟨some 0⟩], edges := [⟨[], [0], some 1, 1, 0⟩, ⟨[0], [], some 1, 1, 1⟩] }

/-! ## Theorems -/

/-- C4: the claim says every zero-input edge is pushed into the ready queue
by `Plan.__init__`; the constructor of lines 48-54 pushes nothing, so the
ready queue after construction is empty and `find_work` finds no work —
for every graph, whatever its zero-input edges. -/
theorem c4_ready_queue_not_seeded : planInit.ready = [] ∧ find_work planInit = none :=
  ⟨rfl, rfl⟩

/-- C6: on the chain A→B→C with runtimes 10/20/30, priority computation
succeeds, but `execute` with one job returns the empty start-time mapping
(the ready queue is never seeded), not `{A:0, B:10, C:30}`. -/
theorem c6_chain_execute_empty :
    (compute_priority_critical_time gChain 1 10).isSome = true ∧
    execute gChain (fun e => ((compute_priority_critical_time gChain 1 10).getD (fun _ => 0)) e) 1 10 = some [] := by
  constructor
  · rfl
  · rfl

/-- C1: each worklist iteration removes the front edge `cur` from the
worklist and the active set and then, for every input node `n` of `cur`
with a producing edge `p`, forms `candidate = priority(cur) + rtd(p)`
from the priority of the removed edge: if the candidate does not exceed
`priority(p)` nothing changes; otherwise `priority(p)` becomes the
candidate and `p` is appended to the worklist and the active set exactly
when it is not already active. -/
theorem c1_worklist_iteration (g : Graph) (d : Nat) :
    (∀ fuel st cur rest, st.queue = cur :: rest →
      relaxLoop g d (fuel + 1) st =
        relaxLoop g d fuel
          (processEdge g d cur { priority := st.priority, queue := rest, active := st.active.erase cur })) ∧
    (∀ cur st, processEdge g d cur st = (g.edgeAt cur).inputs.foldl (processInput g d cur) st) ∧
    (∀ cur st n, (g.nodeAt n).in_edge = none → processInput g d cur st n = st) ∧
    (∀ cur st n p, (g.nodeAt n).in_edge = some p →
      st.priority cur + run_time_or_default g d p ≤ st.priority p →
      processInput g d cur st n = st) ∧
    (∀ cur st n p, (g.nodeAt n).in_edge = some p →
      st.priority p < st.priority cur + run_time_or_default g d p →
      (processInput g d cur st n).priority p = st.priority cur + run_time_or_default g d p ∧
      (∀ q, q ≠ p → (processInput g d cur st n).priority q = st.priority q) ∧
      (p ∈ st.active →
        (processInput g d cur st n).queue = st.queue ∧
        (processInput g d cur st n).active = st.active) ∧
      (p ∉ st.active →
        (processInput g d cur st n).queue = st.queue ++ [p] ∧
        (processInput g d cur st n).active = p :: st.active)) := by
  refine ⟨?_, ?_, ?_, ?_, ?_⟩
  · intro fuel st cur rest h
    obtain ⟨pr, q, act⟩ := st
    cases h
    rfl
  · intro cur st
    rfl
  · intro cur st n h
    unfold processInput
    rw [h]
  · intro cur st n p h hle
    unfold processInput
    rw [h]
    simp only [if_pos hle]
  · intro cur st n p h hlt
    have hnle : ¬ (st.priority cur + run_time_or_default g d p ≤ st.priority p) := by omega
    refine ⟨?_, ?_, ?_, ?_⟩
    · by_cases hmem : p ∈ st.active <;> simp [processInput, h, hnle, hmem]
    · intro q hq
      by_cases hmem : p ∈ st.active <;> simp [processInput, h, hnle, hmem, hq]
    · intro hmem
      constructor <;> simp [processInput, h, hnle, hmem]
    · intro hmem
      constructor <;> simp [processInput, h, hnle, hmem]

/-- C1 witness: one concrete iteration on `gTwo` from worklist `[0, 1]`. -/
theorem c1_witness :
    (({ priority := fun _ => 0, queue := [0, 1], active := ([] : List Nat) } : RState).queue = 0 :: [1]) ∧
    relaxLoop gTwo 1 4 { priority := fun _ => 0, queue := [0, 1], active := ([] : List Nat) } =
      relaxLoop gTwo 1 3
        (processEdge gTwo 1 0
          { priority := fun _ => 0, queue := [1], active := ([] : List Nat).erase 0 }) :=
  ⟨rfl, (c1_worklist_iteration gTwo 1).1 3 _ 0 [1] rfl⟩

/-- On the one-edge cycle the worklist always re-enqueues edge 0. -/
theorem relaxLoop_gCyc_none (d : Nat) : ∀ fuel pr, relaxLoop gCyc d fuel ⟨pr, [0], [0]⟩ = none := by
  intro fuel
  induction fuel with
  | zero => intro pr; simp [relaxLoop]
  | succ n ih =>
    intro pr
    have hstep : processEdge gCyc d 0 ⟨pr, [], List.erase [0] 0⟩ =
        ⟨fun x => if x = 0 then pr 0 + 10 else pr x, [0], [0]⟩ := by
      show List.foldl (processInput gCyc d 0) _ [0] = _
      simp only [List.foldl]
      unfold processInput
      simp only [Graph.nodeAt, gCyc, List.getD, List.get?, Option.getD, run_time_or_default,
        Graph.edgeAt]
      rw [if_neg (by omega)]
      simp
    simp only [relaxLoop]
    rw [hstep]
    exact ih _

/-- C3: the claim (with the spec) requires a cyclic graph to be rejected
with a cycle-detected error before relaxation; the code has no such check
and its relaxation loop never terminates on the one-edge cycle: for every
fuel bound, `compute_priority_critical_time` is still running. -/
theorem c3_cycle_never_terminates (d : Nat) :
    ∀ fuel, compute_priority_critical_time gCyc d fuel = none := by
  intro fuel
  unfold compute_priority_critical_time
  have : relaxLoop gCyc d fuel (relaxInit gCyc d) = none := by
    have h : relaxInit gCyc d = ⟨fun e => run_time_or_default gCyc d e, [0], [0]⟩ := rfl
    rw [h]
    exact relaxLoop_gCyc_none d fuel _
  rw [this]
  rfl

/-- C5 (counterexample): finishing edge 0 twice pushes the waiting edge 1
into the ready queue twice, so under an arbitrary sequence of
`edge_finished` calls an edge can enter the ready queue more than once. -/
theorem c5_counterexample : (planRun gTwo (fun _ => 0) [0, 0]).ready.count 1 = 2 := by rfl

/-- C7: `p75_runtime` returns 1 when no edge has an estimate, and otherwise
returns the entry at zero-based rank `(n-1) - n/4` of the ascending
reordering of the collected estimates. -/
theorem c7_p75 (edges : List Edge) :
    (edges.filterMap Edge.run_time_ms = [] → p75_runtime edges = 1) ∧
    (∀ l : List Nat, edges.filterMap Edge.run_time_ms ≠ [] →
      l.Perm (edges.filterMap Edge.run_time_ms) → l.Sorted (· ≤ ·) →
      p75_runtime edges = l.getD ((l.length - 1) - l.length / 4) 0) := by
  constructor
  · intro h
    simp [p75_runtime, h]
  · intro l hne hperm hsort
    have hlen0 : (edges.filterMap Edge.run_time_ms).length ≠ 0 := by
      simpa [List.length_eq_zero] using hne
    have hsortins : (List.insertionSort (· ≤ ·) (edges.filterMap Edge.run_time_ms)).Sorted (· ≤ ·) :=
      List.sorted_insertionSort _ _
    have hpermins : (List.insertionSort (· ≤ ·) (edges.filterMap Edge.run_time_ms)).Perm
        (edges.filterMap Edge.run_time_ms) := List.perm_insertionSort _ _
    have heq : l = List.insertionSort (· ≤ ·) (edges.filterMap Edge.run_time_ms) :=
      List.eq_of_perm_of_sorted (hperm.trans hpermins.symm) hsort hsortins
    have hlen : l.length = (edges.filterMap Edge.run_time_ms).length := hperm.length_eq
    simp only [p75_runtime, if_neg hlen0]
    rw [hlen, heq]

/-- C7 witness: `p75` of estimates 5, 10, 15, 20 is 15, the entry at rank
`3 - 1 = 2` of the ascending list. -/
theorem c7_p75_witness :
    ([5, 10, 15, 20] : List Nat).Sorted (· ≤ ·) ∧
    p75_runtime [⟨[], [], some 5, 0, 0⟩, ⟨[], [], some 10, 0, 0⟩, ⟨[], [], some 15, 0, 0⟩, ⟨[], [], some 20, 0, 0⟩] = 15 := by
  refine ⟨by decide, ?_⟩
  have := (c7_p75 [⟨[], [], some 5, 0, 0⟩, ⟨[], [], some 10, 0, 0⟩, ⟨[], [], some 15, 0, 0⟩, ⟨[], [], some 20, 0, 0⟩]).2
    [5, 10, 15, 20] (by decide) (by decide) (by decide)
  simpa using this

/-- C10: when at least one estimate is collected, the rank used by
`p75_runtime` is in bounds and the returned value is one of the collected
estimates. -/
theorem c10_p75_index_in_bounds (edges : List Edge) (h : edges.filterMap Edge.run_time_ms ≠ []) :
    ((edges.filterMap Edge.run_time_ms).length - 1) - (edges.filterMap Edge.run_time_ms).length / 4 <
      (edges.filterMap Edge.run_time_ms).length ∧
    p75_runtime edges ∈ edges.filterMap Edge.run_time_ms := by
  have hlen0 : (edges.filterMap Edge.run_time_ms).length ≠ 0 := by
    simpa [List.length_eq_zero] using h
  have hidx : ((edges.filterMap Edge.run_time_ms).length - 1) - (edges.filterMap Edge.run_time_ms).length / 4 <
      (edges.filterMap Edge.run_time_ms).length := by omega
  refine ⟨hidx, ?_⟩
  have hpermins : (List.insertionSort (· ≤ ·) (edges.filterMap Edge.run_time_ms)).Perm
      (edges.filterMap Edge.run_time_ms) := List.perm_insertionSort _ _
  have hlens : (List.insertionSort (· ≤ ·) (edges.filterMap Edge.run_time_ms)).length =
      (edges.filterMap Edge.run_time_ms).length := hpermins.length_eq
  simp only [p75_runtime, if_neg hlen0]
  have hidx' : ((edges.filterMap Edge.run_time_ms).length - 1) - (edges.filterMap Edge.run_time_ms).length / 4 <
      (List.insertionSort (· ≤ ·) (edges.filterMap Edge.run_time_ms)).length := by omega
  rw [List.getD_eq_getElem _ _ hidx']
  exact hpermins.mem_iff.mp (List.getElem_mem _)

/-- C10 witness: with estimates 5 and 7 present the returned value is one of
the collected estimates. -/
theorem c10_witness :
    ([⟨[], [], some 5, 0, 0⟩, ⟨[], [], some 7, 0, 0⟩] : List Edge).filterMap Edge.run_time_ms ≠ [] ∧
    p75_runtime [⟨[], [], some 5, 0, 0⟩, ⟨[], [], some 7, 0, 0⟩] ∈
      ([⟨[], [], some 5, 0, 0⟩, ⟨[], [], some 7, 0, 0⟩] : List Edge).filterMap Edge.run_time_ms :=
  ⟨by decide, (c10_p75_index_in_bounds _ (by decide)).2⟩

/-! Helper development for the relaxation loop. -/

theorem edgeAt_out (g : Graph) (c : Nat) (h : g.numEdges ≤ c) : g.edgeAt c = emptyEdge := by
  have h' : g.edges.length ≤ c := h
  simp [Graph.edgeAt, List.getD, List.getElem?_eq_none h']

theorem consumes_lt (g : Graph) {c p : Nat} (h : Consumes g c p) : c < g.numEdges := by
  by_contra hc
  rw [Consumes, consumesB, edgeAt_out g c (by omega)] at h
  simp [emptyEdge] at h

theorem consumes_iff (g : Graph) (c p : Nat) :
    Consumes g c p ↔ ∃ n ∈ (g.edgeAt c).inputs, (g.nodeAt n).in_edge = some p := by
  simp [Consumes, consumesB, List.any_eq_true]

theorem processInput_eq (g : Graph) (d cur : Nat) (st : RState) (n : Nat) :
    (processInput g d cur st n = st ∧
      ∀ p, (g.nodeAt n).in_edge = some p →
        st.priority cur + run_time_or_default g d p ≤ st.priority p) ∨
    (∃ p, (g.nodeAt n).in_edge = some p ∧
      st.priority p < st.priority cur + run_time_or_default g d p ∧
      (processInput g d cur st n).priority =
        (fun x => if x = p then st.priority cur + run_time_or_default g d p else st.priority x) ∧
      (processInput g d cur st n).queue = (if p ∈ st.active then st.queue else st.queue ++ [p]) ∧
      (processInput g d cur st n).active = (if p ∈ st.active then st.active else p :: st.active)) := by
  cases h : (g.nodeAt n).in_edge with
  | none => exact Or.inl ⟨by simp [processInput, h], fun p hp => by cases hp⟩
  | some p =>
    by_cases hle : st.priority cur + run_time_or_default g d p ≤ st.priority p
    · refine Or.inl ⟨by simp [processInput, h, hle], fun q hq => ?_⟩
      have hq' : p = q := by injection hq
      subst hq'
      exact hle
    · refine Or.inr ⟨p, rfl, by omega, ?_, ?_, ?_⟩
      · by_cases hmem : p ∈ st.active <;> simp [processInput, h, hle, hmem]
      · by_cases hmem : p ∈ st.active <;> simp [processInput, h, hle, hmem]
      · by_cases hmem : p ∈ st.active <;> simp [processInput, h, hle, hmem]

theorem processInput_mono (g : Graph) (d cur : Nat) (st : RState) (n : Nat) (e : Nat) :
    st.priority e ≤ (processInput g d cur st n).priority e := by
  rcases processInput_eq g d cur st n with ⟨heq, _⟩ | ⟨p, _, hlt, hprio, _, _⟩
  · rw [heq]
  · rw [hprio]
    by_cases he : e = p
    · subst he; simp; omega
    · simp [he]

theorem processInput_active_mono (g : Graph) (d cur : Nat) (st : RState) (n : Nat) (x : Nat)
    (hx : x ∈ st.active) : x ∈ (processInput g d cur st n).active := by
  rcases processInput_eq g d cur st n with ⟨heq, _⟩ | ⟨p, _, _, _, _, hact⟩
  · rw [heq]; exact hx
  · rw [hact]
    by_cases hmem : p ∈ st.active <;> simp [hmem, hx]

theorem processInput_frozen (g : Graph) (d cur : Nat) (st : RState) (n : Nat) (e : Nat)
    (he : e ∉ (processInput g d cur st n).active) :
    e ∉ st.active ∧ (processInput g d cur st n).priority e = st.priority e := by
  refine ⟨fun hx => he (processInput_active_mono g d cur st n e hx), ?_⟩
  rcases processInput_eq g d cur st n with ⟨heq, _⟩ | ⟨p, _, _, hprio, _, hact⟩
  · rw [heq]
  · rw [hprio]
    have hep : e ≠ p := by
      intro hep
      subst hep
      apply he
      rw [hact]
      by_cases hmem : e ∈ st.active <;> simp [hmem]
    simp [hep]

/-! Fold-level lemmas over a list of input nodes. -/

theorem foldl_processInput_mono (g : Graph) (d cur : Nat) (l : List Nat) :
    ∀ (st : RState) (e : Nat), st.priority e ≤ (l.foldl (processInput g d cur) st).priority e := by
  induction l with
  | nil => intro st e; exact Nat.le_refl _
  | cons n l ih =>
    intro st e
    exact Nat.le_trans (processInput_mono g d cur st n e) (ih _ e)

theorem foldl_processInput_active_mono (g : Graph) (d cur : Nat) (l : List Nat) :
    ∀ (st : RState) (x : Nat), x ∈ st.active → x ∈ (l.foldl (processInput g d cur) st).active := by
  induction l with
  | nil => intro st x hx; exact hx
  | cons n l ih =>
    intro st x hx
    exact ih _ x (processInput_active_mono g d cur st n x hx)

theorem foldl_processInput_frozen (g : Graph) (d cur : Nat) (l : List Nat) :
    ∀ (st : RState) (e : Nat), e ∉ (l.foldl (processInput g d cur) st).active →
      e ∉ st.active ∧ (l.foldl (processInput g d cur) st).priority e = st.priority e := by
  induction l with
  | nil => intro st e he; exact ⟨he, rfl⟩
  | cons n l ih =>
    intro st e he
    rw [List.foldl_cons] at he ⊢
    obtain ⟨h1, h2⟩ := ih _ e he
    obtain ⟨h3, h4⟩ := processInput_frozen g d cur st n e h1
    exact ⟨h3, h2.trans h4⟩

/-! Chain lemmas. -/

theorem chainWeight_cons (g : Graph) (d a : Nat) (l : List Nat) :
    chainWeight g d (a :: l) = run_time_or_default g d a + chainWeight g d l := by
  simp [chainWeight]

theorem chainFrom_weight_ge (g : Graph) (d e : Nat) (ch : List Nat) (h : ChainFrom g e ch) :
    run_time_or_default g d e ≤ chainWeight g d ch := by
  obtain ⟨hhead, _⟩ := h
  cases ch with
  | nil => cases hhead
  | cons a tl =>
    have ha : a = e := by injection hhead
    subst ha
    rw [chainWeight_cons]
    exact Nat.le_add_right _ _

theorem chain_le_of_fix (g : Graph) (d : Nat) (pr : Nat → Nat)
    (hbase : ∀ e, run_time_or_default g d e ≤ pr e)
    (hfix : ∀ c p, Consumes g c p → pr c + run_time_or_default g d p ≤ pr p) :
    ∀ ch e, ChainFrom g e ch → chainWeight g d ch ≤ pr e := by
  intro ch
  induction ch with
  | nil => intro e h; cases h.1
  | cons a tl ih =>
    intro e h
    obtain ⟨hhead, hchain⟩ := h
    have ha : a = e := by injection hhead
    subst ha
    cases tl with
    | nil => simpa [chainWeight] using hbase a
    | cons b tl' =>
      rw [List.chain'_cons] at hchain
      have hb : chainWeight g d (b :: tl') ≤ pr b := ih b ⟨rfl, hchain.2⟩
      have hfab : pr b + run_time_or_default g d a ≤ pr a := hfix b a hchain.1
      rw [chainWeight_cons]
      omega

theorem isCriticalTime_unique (g : Graph) (d e w1 w2 : Nat)
    (h1 : IsCriticalTime g d e w1) (h2 : IsCriticalTime g d e w2) : w1 = w2 := by
  obtain ⟨⟨ch1, hch1, hw1⟩, hub1⟩ := h1
  obtain ⟨⟨ch2, hch2, hw2⟩, hub2⟩ := h2
  have a1 : w1 ≤ w2 := hw1 ▸ hub2 ch1 hch1
  have a2 : w2 ≤ w1 := hw2 ▸ hub1 ch2 hch2
  omega

/-! The loop invariant of the relaxation. -/

theorem processInput_realized (g : Graph) (d cur : Nat) (st : RState) (n : Nat)
    (hn : n ∈ (g.edgeAt cur).inputs)
    (hreal : ∀ e, ∃ ch, ChainFrom g e ch ∧ chainWeight g d ch = st.priority e) :
    ∀ e, ∃ ch, ChainFrom g e ch ∧ chainWeight g d ch = (processInput g d cur st n).priority e := by
  intro e
  rcases processInput_eq g d cur st n with ⟨heq, _⟩ | ⟨p, hp, hlt, hprio, _, _⟩
  · rw [heq]; exact hreal e
  · by_cases he : e = p
    · subst he
      have hpe : (processInput g d cur st n).priority e =
          st.priority cur + run_time_or_default g d e := by rw [hprio]; simp
      rw [hpe]
      obtain ⟨ch, ⟨hhead, hchain⟩, hw⟩ := hreal cur
      cases ch with
      | nil => cases hhead
      | cons c tl =>
        have hc : c = cur := by injection hhead
        subst hc
        refine ⟨e :: c :: tl, ⟨rfl, ?_⟩, ?_⟩
        · exact List.chain'_cons.mpr ⟨(consumes_iff g c e).mpr ⟨n, hn, hp⟩, hchain⟩
        · rw [chainWeight_cons, hw]
          omega
    · have hpe : (processInput g d cur st n).priority e = st.priority e := by
        rw [hprio]; simp [he]
      rw [hpe]
      exact hreal e

theorem processInput_actq (g : Graph) (d cur : Nat) (st : RState) (n : Nat)
    (h1 : ∀ x, x ∈ st.active ↔ x ∈ st.queue) (h2 : st.queue.Nodup) (h3 : st.active.Nodup) :
    (∀ x, x ∈ (processInput g d cur st n).active ↔ x ∈ (processInput g d cur st n).queue) ∧
    (processInput g d cur st n).queue.Nodup ∧ (processInput g d cur st n).active.Nodup := by
  rcases processInput_eq g d cur st n with ⟨heq, _⟩ | ⟨p, hp, hlt, hprio, hq, ha⟩
  · rw [heq]; exact ⟨h1, h2, h3⟩
  · rw [hq, ha]
    by_cases hmem : p ∈ st.active
    · simp only [if_pos hmem]; exact ⟨h1, h2, h3⟩
    · simp only [if_neg hmem]
      have hpq : p ∉ st.queue := fun hx => hmem ((h1 p).mpr hx)
      refine ⟨?_, ?_, ?_⟩
      · intro x
        simp only [List.mem_cons, List.mem_append, List.mem_singleton, h1 x]
        tauto
      · simp [List.nodup_append, h2, hpq]
      · exact List.nodup_cons.mpr ⟨hmem, h3⟩

theorem foldl_processInput_realized (g : Graph) (d cur : Nat) (l : List Nat)
    (hl : ∀ n ∈ l, n ∈ (g.edgeAt cur).inputs) :
    ∀ st : RState, (∀ e, ∃ ch, ChainFrom g e ch ∧ chainWeight g d ch = st.priority e) →
      ∀ e, ∃ ch, ChainFrom g e ch ∧ chainWeight g d ch = (l.foldl (processInput g d cur) st).priority e := by
  induction l with
  | nil => intro st h e; exact h e
  | cons n l ih =>
    intro st h e
    rw [List.foldl_cons]
    exact ih (fun m hm => hl m (List.mem_cons_of_mem _ hm)) _
      (processInput_realized g d cur st n (hl n (List.mem_cons_self _ _)) h) e

theorem foldl_processInput_actq (g : Graph) (d cur : Nat) (l : List Nat) :
    ∀ st : RState, (∀ x, x ∈ st.active ↔ x ∈ st.queue) → st.queue.Nodup → st.active.Nodup →
      (∀ x, x ∈ (l.foldl (processInput g d cur) st).active ↔
        x ∈ (l.foldl (processInput g d cur) st).queue) ∧
      (l.foldl (processInput g d cur) st).queue.Nodup ∧
      (l.foldl (processInput g d cur) st).active.Nodup := by
  induction l with
  | nil => intro st h1 h2 h3; exact ⟨h1, h2, h3⟩
  | cons n l ih =>
    intro st h1 h2 h3
    rw [List.foldl_cons]
    obtain ⟨a1, a2, a3⟩ := processInput_actq g d cur st n h1 h2 h3
    exact ih _ a1 a2 a3

theorem foldl_processInput_estab (g : Graph) (d cur : Nat) (l : List Nat) :
    ∀ st : RState,
      cur ∈ (l.foldl (processInput g d cur) st).active ∨
      ((l.foldl (processInput g d cur) st).priority cur = st.priority cur ∧
        ∀ p, (∃ n ∈ l, (g.nodeAt n).in_edge = some p) →
          (l.foldl (processInput g d cur) st).priority cur + run_time_or_default g d p ≤
            (l.foldl (processInput g d cur) st).priority p) := by
  induction l with
  | nil =>
    intro st
    exact Or.inr ⟨rfl, fun p hp => by simp at hp⟩
  | cons n l ih =>
    intro st
    rw [List.foldl_cons]
    rcases ih (processInput g d cur st n) with hact | ⟨hfroz, hrest⟩
    · exact Or.inl hact
    · rcases processInput_eq g d cur st n with ⟨heq, hskip⟩ | ⟨p0, hp0, hlt0, hprio0, _, hact0⟩
      · rw [heq] at hfroz hrest ⊢
        refine Or.inr ⟨hfroz, fun p hp => ?_⟩
        rcases hp with ⟨m, hm, hme⟩
        rcases List.mem_cons.mp hm with hm0 | hm1
        · subst hm0
          have hineq := hskip p hme
          have hmono := foldl_processInput_mono g d cur l st p
          rw [hfroz]
          omega
        · exact hrest p ⟨m, hm1, hme⟩
      · by_cases hcur : cur = p0
        · -- cur's priority was raised, so cur re-entered the active set
          refine Or.inl (foldl_processInput_active_mono g d cur l _ cur ?_)
          rw [hact0, hcur]
          by_cases hmem : p0 ∈ st.active <;> simp [hmem]
        · have hs1cur : (processInput g d cur st n).priority cur = st.priority cur := by
            rw [hprio0]; simp [hcur]
          refine Or.inr ⟨hfroz.trans hs1cur, fun p hp => ?_⟩
          rcases hp with ⟨m, hm, hme⟩
          rcases List.mem_cons.mp hm with hm0 | hm1
          · subst hm0
            have hpp0 : p = p0 := by
              rw [hme] at hp0
              injection hp0
            subst hpp0
            have hs1p : (processInput g d cur st m).priority p =
                st.priority cur + run_time_or_default g d p := by
              rw [hprio0]; simp
            have hmono := foldl_processInput_mono g d cur l (processInput g d cur st m) p
            rw [hfroz.trans hs1cur]
            omega
          · exact hrest p ⟨m, hm1, hme⟩

theorem relax_iter_inv (g : Graph) (d : Nat) (st : RState) (cur : Nat) (rest : List Nat)
    (hq : st.queue = cur :: rest) (hinv : RelaxInv g d st) :
    RelaxInv g d (processEdge g d cur
      { priority := st.priority, queue := rest, active := st.active.erase cur }) ∧
    ∀ e, st.priority e ≤ (processEdge g d cur
      { priority := st.priority, queue := rest, active := st.active.erase cur }).priority e := by
  set st0 : RState :=
    { priority := st.priority, queue := rest, active := st.active.erase cur } with hst0
  have hrest_nd : rest.Nodup := by
    have h := hinv.qnd
    rw [hq] at h
    exact (List.nodup_cons.mp h).2
  have hcur_rest : cur ∉ rest := by
    have h := hinv.qnd
    rw [hq] at h
    exact (List.nodup_cons.mp h).1
  have hactq0 : ∀ x, x ∈ st0.active ↔ x ∈ st0.queue := by
    intro x
    show x ∈ st.active.erase cur ↔ x ∈ rest
    rw [hinv.and.mem_erase_iff]
    constructor
    · rintro ⟨hxc, hxa⟩
      have := (hinv.actq x).mp hxa
      rw [hq] at this
      rcases List.mem_cons.mp this with h | h
      · exact absurd h hxc
      · exact h
    · intro hx
      refine ⟨fun hxc => hcur_rest (hxc ▸ hx), (hinv.actq x).mpr ?_⟩
      rw [hq]
      exact List.mem_cons_of_mem _ hx
  have hand0 : st0.active.Nodup := hinv.and.erase cur
  have hrealized := foldl_processInput_realized g d cur (g.edgeAt cur).inputs
    (fun n hn => hn) st0 hinv.realized
  have hactqF := foldl_processInput_actq g d cur (g.edgeAt cur).inputs st0 hactq0 hrest_nd hand0
  refine ⟨⟨hrealized, ?_, hactqF.1, hactqF.2.1, hactqF.2.2⟩,
    fun e => foldl_processInput_mono g d cur (g.edgeAt cur).inputs st0 e⟩
  intro c hc p hcp
  obtain ⟨hc0, hcfroz⟩ := foldl_processInput_frozen g d cur (g.edgeAt cur).inputs st0 c hc
  by_cases hceq : c = cur
  · subst hceq
    rcases foldl_processInput_estab g d c (g.edgeAt c).inputs st0 with hl | ⟨_, hest⟩
    · exact absurd hl hc
    · exact hest p ((consumes_iff g c p).mp hcp)
  · have hca : c ∉ st.active := by
      intro hca
      exact hc0 (hinv.and.mem_erase_iff.mpr ⟨hceq, hca⟩)
    have hbase := hinv.fixed c hca p hcp
    have hmono := foldl_processInput_mono g d cur (g.edgeAt cur).inputs st0 p
    have hfroz' : (processEdge g d cur st0).priority c = st.priority c := hcfroz
    show (processEdge g d cur st0).priority c + run_time_or_default g d p ≤
      (processEdge g d cur st0).priority p
    rw [hfroz']
    calc st.priority c + run_time_or_default g d p ≤ st.priority p := hbase
      _ ≤ _ := hmono

theorem relaxLoop_inv (g : Graph) (d : Nat) :
    ∀ (fuel : Nat) (st st' : RState), RelaxInv g d st → relaxLoop g d fuel st = some st' →
      RelaxInv g d st' ∧ st'.queue = [] ∧ ∀ e, st.priority e ≤ st'.priority e := by
  intro fuel
  induction fuel with
  | zero =>
    intro st st' hinv h
    by_cases hq : st.queue = []
    · rw [relaxLoop, if_pos hq] at h
      cases h
      exact ⟨hinv, hq, fun e => Nat.le_refl _⟩
    · rw [relaxLoop, if_neg hq] at h
      cases h
  | succ fuel ih =>
    intro st st' hinv h
    obtain ⟨pr, q, act⟩ := st
    cases hq : q with
    | nil =>
      subst hq
      cases h
      exact ⟨hinv, rfl, fun e => Nat.le_refl _⟩
    | cons cur rest =>
      subst hq
      have hstep := relax_iter_inv g d ⟨pr, cur :: rest, act⟩ cur rest rfl hinv
      have h' : relaxLoop g d fuel
          (processEdge g d cur { priority := pr, queue := rest, active := act.erase cur }) =
          some st' := h
      obtain ⟨hinv', hq', hmono'⟩ := ih _ st' hstep.1 h'
      exact ⟨hinv', hq', fun e => Nat.le_trans (hstep.2 e) (hmono' e)⟩

theorem relaxInit_inv (g : Graph) (d : Nat) : RelaxInv g d (relaxInit g d) := by
  refine ⟨?_, ?_, fun x => Iff.rfl, List.nodup_range _, List.nodup_range _⟩
  · intro e
    exact ⟨[e], ⟨rfl, List.chain'_singleton e⟩, by simp [chainWeight, relaxInit]⟩
  · intro c hc p hcp
    exfalso
    apply hc
    show c ∈ List.range g.numEdges
    simp only [List.mem_range]
    exact consumes_lt g hcp

/-! Arithmetic of the id tie-break encoding. -/

theorem encode_lt_iff (M a1 a2 r1 r2 : Nat) (h1 : r1 < M) (h2 : r2 < M) :
    a1 * M + r1 < a2 * M + r2 ↔ (a1 < a2 ∨ (a1 = a2 ∧ r1 < r2)) := by
  constructor
  · intro h
    rcases Nat.lt_trichotomy a1 a2 with hlt | heq | hgt
    · exact Or.inl hlt
    · subst heq
      exact Or.inr ⟨rfl, (add_lt_add_iff_left _).mp h⟩
    · exfalso
      have hm : (a2 + 1) * M ≤ a1 * M := Nat.mul_le_mul_right M (by omega)
      rw [Nat.succ_mul] at hm
      have hlt2 : a2 * M + r2 < a2 * M + M := add_lt_add_left h2 _
      have h3 : a1 * M + r1 < a1 * M := lt_of_lt_of_le (lt_trans h hlt2) hm
      exact absurd h3 (by simp)
  · intro h
    rcases h with hlt | ⟨heq, hr⟩
    · have hm : (a1 + 1) * M ≤ a2 * M := Nat.mul_le_mul_right M (by omega)
      rw [Nat.succ_mul] at hm
      calc a1 * M + r1 < a1 * M + M := add_lt_add_left h1 _
        _ ≤ a2 * M := hm
        _ ≤ a2 * M + r2 := Nat.le_add_right _ _
    · subst heq
      exact add_lt_add_left hr _

theorem encode_inj (M a1 a2 r1 r2 : Nat) (h1 : r1 < M) (h2 : r2 < M)
    (h : a1 * M + r1 = a2 * M + r2) : a1 = a2 ∧ r1 = r2 := by
  have n1 : ¬(a1 < a2 ∨ (a1 = a2 ∧ r1 < r2)) := by
    rw [← encode_lt_iff M a1 a2 r1 r2 h1 h2]
    omega
  have n2 : ¬(a2 < a1 ∨ (a2 = a1 ∧ r2 < r1)) := by
    rw [← encode_lt_iff M a2 a1 r2 r1 h2 h1]
    omega
  clear h
  omega

theorem le_foldr_max (a : Nat) (l : List Nat) (h : a ∈ l) : a ≤ l.foldr max 0 := by
  induction l with
  | nil => cases h
  | cons b l ih =>
    rcases List.mem_cons.mp h with h1 | h2
    · subst h1
      exact le_max_left _ _
    · exact le_trans (ih h2) (le_max_right _ _)

theorem id_le_maxId (g : Graph) (e : Nat) (he : e < g.numEdges) : (g.edgeAt e).id ≤ maxId g := by
  apply le_foldr_max
  apply List.mem_map.mpr
  refine ⟨g.edgeAt e, ?_, rfl⟩
  rw [Graph.edgeAt, List.getD_eq_getElem _ _ he]
  exact List.getElem_mem _

/-- C2: when `compute_priority_critical_time` finishes, with `M = max(id)+1`
every edge's final priority is `critical_time(e) * M + (M - 1 - id(e))`
(critical times exist and are unique maxima of chain weights), final
priorities of edges with distinct ids are distinct, and they order edges by
critical time descending with ties broken by ascending id. -/
theorem c2_final_priorities (g : Graph) (d fuel : Nat) (pc : Nat → Nat)
    (hpc : compute_priority_critical_time g d fuel = some pc) :
    (∀ e, ∃ ct, IsCriticalTime g d e ct) ∧
    (∀ e ct, IsCriticalTime g d e ct →
      pc e = ct * (maxId g + 1) + ((maxId g + 1) - 1 - (g.edgeAt e).id)) ∧
    (∀ e1 e2, e1 < g.numEdges → e2 < g.numEdges →
      (g.edgeAt e1).id ≠ (g.edgeAt e2).id → pc e1 ≠ pc e2) ∧
    (∀ e1 e2 ct1 ct2, e1 < g.numEdges → e2 < g.numEdges →
      (g.edgeAt e1).id ≠ (g.edgeAt e2).id →
      IsCriticalTime g d e1 ct1 → IsCriticalTime g d e2 ct2 →
      (pc e2 < pc e1 ↔ (ct2 < ct1 ∨ (ct2 = ct1 ∧ (g.edgeAt e1).id < (g.edgeAt e2).id)))) := by
  unfold compute_priority_critical_time at hpc
  cases hrel : relaxLoop g d fuel (relaxInit g d) with
  | none => rw [hrel] at hpc; cases hpc
  | some stF =>
    rw [hrel] at hpc
    have hpcf : pc = fun e =>
        stF.priority e * (maxId g + 1) + (maxId g - (g.edgeAt e).id) := by
      injection hpc with h
      exact h.symm
    obtain ⟨hinv, hqe, hmono⟩ := relaxLoop_inv g d fuel (relaxInit g d) stF (relaxInit_inv g d) hrel
    have hae : ∀ x, x ∉ stF.active := by
      intro x hx
      have := (hinv.actq x).mp hx
      rw [hqe] at this
      cases this
    have hfull : ∀ c p, Consumes g c p →
        stF.priority c + run_time_or_default g d p ≤ stF.priority p :=
      fun c p h => hinv.fixed c (hae c) p h
    have hbase : ∀ e, run_time_or_default g d e ≤ stF.priority e := by
      intro e
      obtain ⟨ch, hch, hw⟩ := hinv.realized e
      rw [← hw]
      exact chainFrom_weight_ge g d e ch hch
    have hct : ∀ e, IsCriticalTime g d e (stF.priority e) := fun e =>
      ⟨hinv.realized e, fun ch hch => chain_le_of_fix g d stF.priority hbase hfull ch e hch⟩
    refine ⟨fun e => ⟨stF.priority e, hct e⟩, ?_, ?_, ?_⟩
    · intro e ct h
      have hcteq : ct = stF.priority e := isCriticalTime_unique g d e ct _ h (hct e)
      have hsub : (maxId g + 1) - 1 - (g.edgeAt e).id = maxId g - (g.edgeAt e).id := by omega
      rw [hsub, hcteq, hpcf]
    · intro e1 e2 h1 h2 hid heq
      have hb1 : (g.edgeAt e1).id ≤ maxId g := id_le_maxId g e1 h1
      have hb2 : (g.edgeAt e2).id ≤ maxId g := id_le_maxId g e2 h2
      rw [hpcf] at heq
      simp only [] at heq
      obtain ⟨_, hr⟩ := encode_inj (maxId g + 1) _ _ _ _ (by omega) (by omega) heq
      exact hid (by omega)
    · intro e1 e2 ct1 ct2 h1 h2 hid hc1 hc2
      have hb1 : (g.edgeAt e1).id ≤ maxId g := id_le_maxId g e1 h1
      have hb2 : (g.edgeAt e2).id ≤ maxId g := id_le_maxId g e2 h2
      have hu1 : ct1 = stF.priority e1 := isCriticalTime_unique g d e1 ct1 _ hc1 (hct e1)
      have hu2 : ct2 = stF.priority e2 := isCriticalTime_unique g d e2 ct2 _ hc2 (hct e2)
      rw [hpcf]
      simp only []
      rw [encode_lt_iff (maxId g + 1) _ _ _ _ (by omega) (by omega), hu1, hu2]
      constructor
      · intro h
        rcases h with h | ⟨ha, hb⟩
        · exact Or.inl h
        · exact Or.inr ⟨ha, by omega⟩
      · intro h
        rcases h with h | ⟨ha, hb⟩
        · exact Or.inl h
        · exact Or.inr ⟨ha, by omega⟩

/-- C2 witness: on the chain graph the computation finishes and the final
priorities of edges 0 and 1 are distinct. -/
theorem c2_witness :
    compute_priority_critical_time gChain 1 10 =
      some ((compute_priority_critical_time gChain 1 10).getD (fun _ => 0)) ∧
    (compute_priority_critical_time gChain 1 10).getD (fun _ => 0) 0 ≠
      (compute_priority_critical_time gChain 1 10).getD (fun _ => 0) 1 := by
  refine ⟨rfl, ?_⟩
  exact (c2_final_priorities gChain 1 10 _ rfl).2.2.1 0 1 (by decide) (by decide) (by decide)

/-! Termination of the relaxation on well-formed acyclic graphs (C8). -/

theorem nodeAt_in_edge_lt (g : Graph) (hwf : WF g) {n p : Nat}
    (h : (g.nodeAt n).in_edge = some p) : p < g.numEdges := by
  by_cases hn : n < g.nodes.length
  · apply hwf.2 (g.nodeAt n) ?_ p h
    rw [Graph.nodeAt, List.getD_eq_getElem _ _ hn]
    exact List.getElem_mem _
  · have hdef : g.nodeAt n = ⟨none⟩ := by
      rw [Graph.nodeAt]
      simp [List.getD, List.getElem?_eq_none (by omega : g.nodes.length ≤ n)]
    rw [hdef] at h
    cases h

theorem processInput_measure (g : Graph) (d cur : Nat) (B : Nat → Nat) (hwf : WF g)
    (hpot : IsPotential g d B) (st : RState) (n : Nat)
    (hcons : ∀ p, (g.nodeAt n).in_edge = some p → Consumes g cur p)
    (hbinv : ∀ e, st.priority e ≤ B e) :
    (∀ e, (processInput g d cur st n).priority e ≤ B e) ∧
    relaxMeasure g B (processInput g d cur st n) ≤ relaxMeasure g B st := by
  rcases processInput_eq g d cur st n with ⟨heq, _⟩ | ⟨p, hp, hlt, hprio, hq, ha⟩
  · rw [heq]
    exact ⟨hbinv, Nat.le_refl _⟩
  · have hpN : p < g.numEdges := nodeAt_in_edge_lt g hwf hp
    have hC : Consumes g cur p := hcons p hp
    have hnew : st.priority cur + run_time_or_default g d p ≤ B p :=
      le_trans (add_le_add_right (hbinv cur) _) (hpot.2 cur p hC)
    have hbinv' : ∀ e, (processInput g d cur st n).priority e ≤ B e := by
      intro e
      rw [hprio]
      by_cases he : e = p
      · subst he; simpa using hnew
      · simpa [he] using hbinv e
    refine ⟨hbinv', ?_⟩
    -- sum accounting: the slack at p shrinks by the strict increase
    set delta := st.priority cur + run_time_or_default g d p - st.priority p with hdelta
    have hd1 : 1 ≤ delta := by omega
    have hsum : ((Finset.range g.numEdges).sum fun e => B e - (processInput g d cur st n).priority e)
        + delta = (Finset.range g.numEdges).sum fun e => B e - st.priority e := by
      have hpoint : ∀ e ∈ Finset.range g.numEdges,
          B e - st.priority e =
            (B e - (processInput g d cur st n).priority e) + (if e = p then delta else 0) := by
        intro e _
        rw [hprio]
        by_cases he : e = p
        · subst he
          have h1 := hbinv e
          have h2 := hnew
          simp
          omega
        · simp [he]
      rw [Finset.sum_congr rfl hpoint, Finset.sum_add_distrib, Finset.sum_ite_eq']
      simp [Finset.mem_range.mpr hpN]
    rw [relaxMeasure, relaxMeasure, hq]
    by_cases hmem : p ∈ st.active
    · simp only [if_pos hmem]
      omega
    · simp only [if_neg hmem, List.length_append, List.length_singleton]
      omega

theorem foldl_processInput_measure (g : Graph) (d cur : Nat) (B : Nat → Nat) (hwf : WF g)
    (hpot : IsPotential g d B) (l : List Nat) (hl : ∀ n ∈ l, n ∈ (g.edgeAt cur).inputs) :
    ∀ st : RState, (∀ e, st.priority e ≤ B e) →
      (∀ e, (l.foldl (processInput g d cur) st).priority e ≤ B e) ∧
      relaxMeasure g B (l.foldl (processInput g d cur) st) ≤ relaxMeasure g B st := by
  induction l with
  | nil => intro st h; exact ⟨h, Nat.le_refl _⟩
  | cons n l ih =>
    intro st h
    have hcons : ∀ p, (g.nodeAt n).in_edge = some p → Consumes g cur p := fun p hp =>
      (consumes_iff g cur p).mpr ⟨n, hl n (List.mem_cons_self _ _), hp⟩
    obtain ⟨h1, h2⟩ := processInput_measure g d cur B hwf hpot st n hcons h
    obtain ⟨h3, h4⟩ := ih (fun m hm => hl m (List.mem_cons_of_mem _ hm)) _ h1
    rw [List.foldl_cons]
    exact ⟨h3, le_trans h4 h2⟩

theorem relaxLoop_term (g : Graph) (d : Nat) (B : Nat → Nat) (hwf : WF g)
    (hpot : IsPotential g d B) :
    ∀ (fuel : Nat) (st : RState), (∀ e, st.priority e ≤ B e) →
      relaxMeasure g B st ≤ fuel → ∃ st', relaxLoop g d fuel st = some st' := by
  intro fuel
  induction fuel with
  | zero =>
    intro st hb hm
    have hq : st.queue = [] := by
      have : st.queue.length = 0 := by
        have := hm
        rw [relaxMeasure] at this
        omega
      exact List.length_eq_zero.mp this
    rw [relaxLoop, if_pos hq]
    exact ⟨st, rfl⟩
  | succ fuel ih =>
    intro st hb hm
    obtain ⟨pr, q, act⟩ := st
    cases hq : q with
    | nil =>
      subst hq
      exact ⟨_, rfl⟩
    | cons cur rest =>
      subst hq
      set st0 : RState := { priority := pr, queue := rest, active := act.erase cur } with hst0
      have hb0 : ∀ e, st0.priority e ≤ B e := hb
      obtain ⟨hbF, hmF⟩ := foldl_processInput_measure g d cur B hwf hpot
        (g.edgeAt cur).inputs (fun n hn => hn) st0 hb0
      have hm0 : relaxMeasure g B st0 + 1 = relaxMeasure g B ⟨pr, cur :: rest, act⟩ := by
        rw [relaxMeasure, relaxMeasure]
        simp [st0]
        omega
      have hmF' : relaxMeasure g B (processEdge g d cur st0) ≤ fuel := by
        show relaxMeasure g B ((g.edgeAt cur).inputs.foldl (processInput g d cur) st0) ≤ fuel
        have hm' : relaxMeasure g B ⟨pr, cur :: rest, act⟩ ≤ fuel + 1 := hm
        omega
      obtain ⟨st', hst'⟩ := ih (processEdge g d cur st0) hbF hmF'
      exact ⟨st', hst'⟩

theorem consumes_p_lt (g : Graph) (hwf : WF g) {c p : Nat} (h : Consumes g c p) :
    p < g.numEdges := by
  obtain ⟨n, _, hne⟩ := (consumes_iff g c p).mp h
  exact nodeAt_in_edge_lt g hwf hne

theorem exists_potential (g : Graph) (d : Nat) (hwf : WF g) (hacyc : Acyclic g) :
    ∃ B : Nat → Nat, IsPotential g d B := by
  classical
  haveI hTr : IsTrans (Fin g.numEdges)
      (Relation.TransGen fun c p : Fin g.numEdges => Consumes g c.val p.val) :=
    ⟨fun _ _ _ h1 h2 => h1.trans h2⟩
  haveI hIr : IsIrrefl (Fin g.numEdges)
      (Relation.TransGen fun c p : Fin g.numEdges => Consumes g c.val p.val) :=
    ⟨fun a ha => hacyc a.val (Relation.TransGen.lift Fin.val (fun _ _ h => h) ha)⟩
  have hwfR : WellFounded (fun c p : Fin g.numEdges => Consumes g c.val p.val) :=
    @Subrelation.wf _ (Relation.TransGen fun c p : Fin g.numEdges => Consumes g c.val p.val)
      (fun c p : Fin g.numEdges => Consumes g c.val p.val)
      (fun {_ _} h => Relation.TransGen.single h)
      (Finite.wellFounded_of_trans_of_irrefl
        (Relation.TransGen fun c p : Fin g.numEdges => Consumes g c.val p.val))
  let F : (p : Fin g.numEdges) →
      ((y : Fin g.numEdges) → Consumes g y.val p.val → Nat) → Nat := fun p ih =>
    run_time_or_default g d p.val +
      (((List.finRange g.numEdges).filter fun c => consumesB g c.val p.val).attach.map
        fun c => ih c.val (by
          have hc := List.of_mem_filter c.property
          exact hc)).foldr max 0
  let Bf : Fin g.numEdges → Nat := hwfR.fix F
  have hBf : ∀ p : Fin g.numEdges, Bf p =
      run_time_or_default g d p.val +
        (((List.finRange g.numEdges).filter fun c => consumesB g c.val p.val).attach.map
          fun c => Bf c.val).foldr max 0 :=
    fun p => hwfR.fix_eq F p
  refine ⟨fun e => if h : e < g.numEdges then Bf ⟨e, h⟩ else run_time_or_default g d e, ?_, ?_⟩
  · intro e
    by_cases h : e < g.numEdges
    · simp only [dif_pos h]
      rw [hBf ⟨e, h⟩]
      exact Nat.le_add_right _ _
    · simp only [dif_neg h]
      exact Nat.le_refl _
  · intro c p hC
    have hcN : c < g.numEdges := consumes_lt g hC
    have hpN : p < g.numEdges := consumes_p_lt g hwf hC
    simp only [dif_pos hcN, dif_pos hpN]
    rw [hBf ⟨p, hpN⟩]
    have hfmem : (⟨c, hcN⟩ : Fin g.numEdges) ∈
        (List.finRange g.numEdges).filter fun x =>
          consumesB g x.val (⟨p, hpN⟩ : Fin g.numEdges).val :=
      List.mem_filter.mpr ⟨List.mem_finRange _, hC⟩
    have hmem : Bf ⟨c, hcN⟩ ∈
        ((((List.finRange g.numEdges).filter fun x =>
            consumesB g x.val (⟨p, hpN⟩ : Fin g.numEdges).val).attach).map
          fun x => Bf x.val) :=
      List.mem_map.mpr ⟨⟨⟨c, hcN⟩, hfmem⟩, List.mem_attach _ _, rfl⟩
    have hle := le_foldr_max _ _ hmem
    have hval : ((⟨p, hpN⟩ : Fin g.numEdges) : Nat) = p := rfl
    simp only [hval] at hle ⊢
    omega

theorem chain'_transGen {α : Type} (S : α → α → Prop) :
    ∀ (l : List α) (a : α), List.Chain' S (a :: l) → ∀ b ∈ l, Relation.TransGen S a b := by
  intro l
  induction l with
  | nil =>
    intro a _ b hb
    cases hb
  | cons c tl ih =>
    intro a hch b hb
    rw [List.chain'_cons] at hch
    rcases List.mem_cons.mp hb with h1 | h2
    · subst h1
      exact Relation.TransGen.single hch.1
    · exact Relation.TransGen.head hch.1 (ih c hch.2 b h2)

theorem chain'_nodup_of_irrefl {α : Type} (S : α → α → Prop)
    (hirr : ∀ a, ¬ Relation.TransGen S a a) :
    ∀ l : List α, List.Chain' S l → l.Nodup := by
  intro l
  induction l with
  | nil => intro _; exact List.nodup_nil
  | cons a tl ih =>
    intro hch
    rw [List.nodup_cons]
    exact ⟨fun hmem => hirr a (chain'_transGen S tl a hch a hmem), ih hch.tail⟩

theorem chainFrom_nodup (g : Graph) (hacyc : Acyclic g) (e : Nat) (ch : List Nat)
    (h : ChainFrom g e ch) : ch.Nodup := by
  refine chain'_nodup_of_irrefl _ ?_ ch h.2
  intro a ha
  exact hacyc a (Relation.transGen_swap.mp ha)

theorem chain_weight_le_total (g : Graph) (d : Nat) (hacyc : Acyclic g) (e : Nat)
    (he : e < g.numEdges) (ch : List Nat) (h : ChainFrom g e ch) :
    chainWeight g d ch ≤ (Finset.range g.numEdges).sum fun x => run_time_or_default g d x := by
  classical
  have hnd : ch.Nodup := chainFrom_nodup g hacyc e ch h
  obtain ⟨hhead, hchain⟩ := h
  have hsub : ∀ x ∈ ch, x < g.numEdges := by
    intro x hx
    cases ch with
    | nil => cases hx
    | cons a tl =>
      have ha : a = e := by injection hhead
      rcases List.mem_cons.mp hx with h1 | h2
      · subst h1; subst ha; exact he
      · have ht := chain'_transGen _ tl a hchain x h2
        obtain ⟨w, _, hw⟩ := Relation.TransGen.tail'_iff.mp ht
        exact consumes_lt g hw
  show (ch.map fun x => run_time_or_default g d x).sum ≤ _
  calc (ch.map fun x => run_time_or_default g d x).sum
      = ch.toFinset.sum fun x => run_time_or_default g d x :=
        (List.sum_toFinset _ hnd).symm
    _ ≤ (Finset.range g.numEdges).sum fun x => run_time_or_default g d x :=
        Finset.sum_le_sum_of_subset fun x hx =>
          Finset.mem_range.mpr (hsub x (List.mem_toFinset.mp hx))

/-- C8: on every well-formed acyclic graph the worklist relaxation reaches
an empty worklist under some fuel bound; whenever it finishes, every final
priority is at least the initial runtime-or-default and at most the sum of
all edges' runtimes-or-defaults; priorities never decrease at any step; and
a step extends the worklist only by strictly increasing some priority. -/
theorem c8_relaxation_terminates (g : Graph) (d : Nat) (hwf : WF g) (hacyc : Acyclic g) :
    (∃ fuel st', relaxLoop g d fuel (relaxInit g d) = some st') ∧
    (∀ fuel st', relaxLoop g d fuel (relaxInit g d) = some st' →
      (∀ e, run_time_or_default g d e ≤ st'.priority e) ∧
      (∀ e, e < g.numEdges →
        st'.priority e ≤ (Finset.range g.numEdges).sum fun x => run_time_or_default g d x)) ∧
    (∀ cur st n e, st.priority e ≤ (processInput g d cur st n).priority e) ∧
    (∀ cur st n, (processInput g d cur st n).queue ≠ st.queue →
      ∃ p, st.priority p < (processInput g d cur st n).priority p) := by
  refine ⟨?_, ?_, ?_, ?_⟩
  · obtain ⟨B, hpot⟩ := exists_potential g d hwf hacyc
    have hb0 : ∀ e, (relaxInit g d).priority e ≤ B e := fun e => hpot.1 e
    obtain ⟨st', h⟩ := relaxLoop_term g d B hwf hpot
      (relaxMeasure g B (relaxInit g d)) (relaxInit g d) hb0 (Nat.le_refl _)
    exact ⟨_, st', h⟩
  · intro fuel st' hrel
    obtain ⟨hinv, hqe, hmono⟩ := relaxLoop_inv g d fuel _ st' (relaxInit_inv g d) hrel
    constructor
    · intro e
      exact hmono e
    · intro e he
      obtain ⟨ch, hch, hw⟩ := hinv.realized e
      rw [← hw]
      exact chain_weight_le_total g d hacyc e he ch hch
  · exact fun cur st n e => processInput_mono g d cur st n e
  · intro cur st n hne
    rcases processInput_eq g d cur st n with ⟨heq, _⟩ | ⟨p, _, hlt, hprio, _, _⟩
    · exact absurd (by rw [heq]) hne
    · refine ⟨p, ?_⟩
      rw [hprio]
      simpa using hlt

theorem consumes_gTwo {a b : Nat} (h : Consumes gTwo a b) : a = 1 ∧ b = 0 := by
  have ha : a < 2 := consumes_lt gTwo h
  rw [consumes_iff] at h
  obtain ⟨n, hn, hne⟩ := h
  interval_cases a
  · simp [gTwo, Graph.edgeAt] at hn
  · simp only [gTwo, Graph.edgeAt, List.getD] at hn
    simp at hn
    subst hn
    simp only [gTwo, Graph.nodeAt, List.getD] at hne
    simp at hne
    omega

theorem acyclic_gTwo : Acyclic gTwo := by
  have h2 : ∀ a b, Relation.TransGen (Consumes gTwo) a b → a = 1 ∧ b = 0 := by
    intro a b h
    induction h with
    | single hr => exact consumes_gTwo hr
    | tail _ hr ih => exact ⟨ih.1, (consumes_gTwo hr).2⟩
  intro e he
  have := h2 e e he
  omega

theorem wf_gTwo : WF gTwo := by
  constructor
  · intro e he n hn
    simp only [gTwo, List.mem_cons, List.not_mem_nil, or_false] at he
    rcases he with he | he <;> subst he <;> simp_all [gTwo]
  · intro nd hnd p hp
    simp only [gTwo, List.mem_cons, List.not_mem_nil, or_false] at hnd
    subst hnd
    simp only at hp
    injection hp with hp
    subst hp
    simp [gTwo]

/-- C8 witness: `gTwo` is well-formed and acyclic and its relaxation
reaches an empty worklist. -/
theorem c8_witness :
    WF gTwo ∧ Acyclic gTwo ∧
    ∃ fuel st', relaxLoop gTwo 1 fuel (relaxInit gTwo 1) = some st' :=
  ⟨wf_gTwo, acyclic_gTwo, (c8_relaxation_terminates gTwo 1 wf_gTwo acyclic_gTwo).1⟩

/-! Plan-level counting lemmas (C5). -/

theorem epqPush_perm (pr : Nat → Nat) (q : List Nat) (e : Nat) :
    (epqPush pr q e).Perm (e :: q) := by
  induction q with
  | nil => exact List.Perm.refl _
  | cons a q ih =>
    rw [epqPush]
    by_cases hlt : pr a < pr e
    · rw [if_pos hlt]
    · rw [if_neg hlt]
      exact (ih.cons a).trans (List.Perm.swap e a q)

theorem epqPush_count (pr : Nat → Nat) (q : List Nat) (e x : Nat) :
    (epqPush pr q e).count x = q.count x + (if x = e then 1 else 0) := by
  rw [(epqPush_perm pr q e).count_eq x, List.count_cons]
  by_cases hx : x = e
  · subst hx
    simp
  · have hx' : ¬(e = x) := fun h => hx h.symm
    simp [hx, hx']

theorem sum_map_ite_nodup (L : List Nat) (hnd : L.Nodup) (e : Nat) (K : Nat → Nat) :
    (L.map fun x => if x = e then K x else 0).sum = if e ∈ L then K e else 0 := by
  induction L with
  | nil => simp
  | cons a L ih =>
    rw [List.nodup_cons] at hnd
    rw [List.map_cons, List.sum_cons, ih hnd.2]
    by_cases ha : a = e
    · subst ha
      simp [hnd.1]
    · have ha' : ¬(e = a) := fun h => ha h.symm
      simp [ha, ha', List.mem_cons]

theorem waiting_for_count (g : Graph) (n e : Nat) :
    (waiting_for g n).count e =
      if e < g.numEdges then (g.edgeAt e).inputs.count n else 0 := by
  rw [waiting_for, List.count_flatMap]
  have hmap : ∀ e' : Nat,
      (List.count e ∘ fun e' => (((g.edgeAt e').inputs.filter fun m => m == n).map fun _ => e')) e' =
        if e' = e then ((g.edgeAt e').inputs.filter fun m => m == n).length else 0 := by
    intro e'
    simp only [Function.comp_apply]
    rw [List.map_const', List.count_replicate]
    by_cases he : e' = e <;> simp [he]
  rw [show (List.map (List.count e ∘ fun e' =>
      (((g.edgeAt e').inputs.filter fun m => m == n).map fun _ => e')) (List.range g.numEdges)) =
      (List.range g.numEdges).map fun e' =>
        if e' = e then ((g.edgeAt e').inputs.filter fun m => m == n).length else 0 from
    List.map_congr_left fun e' _ => hmap e']
  rw [sum_map_ite_nodup _ (List.nodup_range _) e]
  simp only [List.mem_range]
  rcases Nat.lt_or_ge e g.numEdges with h | h
  · simp only [if_pos h]
    rw [← List.countP_eq_length_filter]
    rfl
  · simp [Nat.not_lt.mpr h]

theorem foldl_pushIfReady (g : Graph) (pr : Nat → Nat) (ws : List Nat) :
    ∀ s : PlanState,
      ((ws.foldl (fun s e => if all_inputs_ready g s.nodeReady e
          then { s with ready := epqPush pr s.ready e } else s) s).nodeReady = s.nodeReady) ∧
      (∀ x, (ws.foldl (fun s e => if all_inputs_ready g s.nodeReady e
          then { s with ready := epqPush pr s.ready e } else s) s).ready.count x =
        s.ready.count x +
          (ws.filter fun e => all_inputs_ready g s.nodeReady e).count x) := by
  induction ws with
  | nil => intro s; exact ⟨rfl, fun x => by simp⟩
  | cons w ws ih =>
    intro s
    rw [List.foldl_cons]
    by_cases hw : all_inputs_ready g s.nodeReady w
    · simp only [if_pos hw]
      obtain ⟨h1, h2⟩ := ih { s with ready := epqPush pr s.ready w }
      refine ⟨h1, fun x => ?_⟩
      rw [h2 x]
      simp only [List.filter_cons, hw, if_pos]
      rw [epqPush_count, List.count_cons]
      by_cases hx : x = w <;> simp [hx] <;> omega
    · simp only [if_neg hw]
      obtain ⟨h1, h2⟩ := ih s
      refine ⟨h1, fun x => ?_⟩
      rw [h2 x]
      have hwf : (all_inputs_ready g s.nodeReady w) = false := by
        simpa using hw
      simp [List.filter_cons, hwf]

theorem markNode_inv (g : Graph) (pr : Nat → Nat) (st : PlanState) (ms : List Nat) (n : Nat)
    (hND : ∀ e, e < g.numEdges → (g.edgeAt e).inputs.Nodup)
    (hinv : PlanInv g st ms) (hn : n ∉ ms) :
    PlanInv g (markNode g pr st n) (ms ++ [n]) := by
  obtain ⟨hrd, hcnt⟩ := hinv
  have hrd' : ∀ m, (if m = n then true else st.nodeReady m) = true ↔ m ∈ ms ++ [n] := by
    intro m
    by_cases hm : m = n
    · subst hm
      simp
    · simp [hm, hrd m, List.mem_append]
  obtain ⟨hkeep, hcount⟩ := foldl_pushIfReady g pr (waiting_for g n)
    { st with nodeReady := fun m => if m = n then true else st.nodeReady m }
  constructor
  · intro m
    show (markNode g pr st n).nodeReady m = true ↔ _
    rw [show (markNode g pr st n).nodeReady = _ from hkeep]
    exact hrd' m
  · intro e
    rw [show (markNode g pr st n).ready.count e = _ from hcount e, hcnt e]
    have hair_iff : all_inputs_ready g
        (fun m => if m = n then true else st.nodeReady m) e = true ↔
        ∀ m ∈ (g.edgeAt e).inputs, m ∈ ms ++ [n] := by
      rw [all_inputs_ready, List.all_eq_true]
      constructor
      · intro h m hm
        exact (hrd' m).mp (h m hm)
      · intro h m hm
        exact (hrd' m).mpr (h m hm)
    by_cases hA : e < g.numEdges
    · by_cases hmemn : n ∈ (g.edgeAt e).inputs
      · -- n is one of e's inputs: e was not ready before, may become ready now
        have hone : (g.edgeAt e).inputs.count n = 1 :=
          List.count_eq_one_of_mem (hND e hA) hmemn
        have hold : ¬(e < g.numEdges ∧ (g.edgeAt e).inputs ≠ [] ∧
            ∀ m ∈ (g.edgeAt e).inputs, m ∈ ms) := by
          rintro ⟨-, -, hall⟩
          exact hn (hall n hmemn)
        rw [if_neg hold]
        have hne : (g.edgeAt e).inputs ≠ [] := fun hnil => by
          rw [hnil] at hmemn
          cases hmemn
        by_cases hair : all_inputs_ready g
            (fun m => if m = n then true else st.nodeReady m) e = true
        · rw [List.count_filter hair, waiting_for_count, if_pos hA, hone,
            if_pos ⟨hA, hne, hair_iff.mp hair⟩]
        · have hzero : ((waiting_for g n).filter fun e' => all_inputs_ready g
              (fun m => if m = n then true else st.nodeReady m) e').count e = 0 := by
            rw [List.count_eq_zero]
            intro hmem
            exact hair (List.of_mem_filter hmem)
          rw [hzero, if_neg]
          rintro ⟨-, -, hall⟩
          exact hair (hair_iff.mpr hall)
      · -- n is not an input of e: nothing changes for e
        have hzero : ((waiting_for g n).filter fun e' => all_inputs_ready g
            (fun m => if m = n then true else st.nodeReady m) e').count e = 0 := by
          have h0 : (waiting_for g n).count e = 0 := by
            rw [waiting_for_count, if_pos hA, List.count_eq_zero.mpr hmemn]
          have hsub : ((waiting_for g n).filter fun e' => all_inputs_ready g
              (fun m => if m = n then true else st.nodeReady m) e').count e ≤
                (waiting_for g n).count e :=
            List.Sublist.count_le (List.filter_sublist _) e
          omega
        rw [hzero]
        have hcond : (e < g.numEdges ∧ (g.edgeAt e).inputs ≠ [] ∧
              ∀ m ∈ (g.edgeAt e).inputs, m ∈ ms) ↔
            (e < g.numEdges ∧ (g.edgeAt e).inputs ≠ [] ∧
              ∀ m ∈ (g.edgeAt e).inputs, m ∈ ms ++ [n]) := by
          constructor
          · rintro ⟨h1, h2, h3⟩
            exact ⟨h1, h2, fun m hm => List.mem_append_left _ (h3 m hm)⟩
          · rintro ⟨h1, h2, h3⟩
            refine ⟨h1, h2, fun m hm => ?_⟩
            rcases List.mem_append.mp (h3 m hm) with h | h
            · exact h
            · rw [List.mem_singleton] at h
              subst h
              exact absurd hm hmemn
        by_cases hc : e < g.numEdges ∧ (g.edgeAt e).inputs ≠ [] ∧
            ∀ m ∈ (g.edgeAt e).inputs, m ∈ ms
        · rw [if_pos hc, if_pos (hcond.mp hc)]
        · rw [if_neg hc, if_neg (fun hh => hc (hcond.mpr hh))]
    · -- e is not a real edge: it is in no waiting list and both sides are 0
      have hzero : ((waiting_for g n).filter fun e' => all_inputs_ready g
          (fun m => if m = n then true else st.nodeReady m) e').count e = 0 := by
        have h0 : (waiting_for g n).count e = 0 := by
          rw [waiting_for_count, if_neg hA]
        have hsub : ((waiting_for g n).filter fun e' => all_inputs_ready g
            (fun m => if m = n then true else st.nodeReady m) e').count e ≤
              (waiting_for g n).count e :=
          List.Sublist.count_le (List.filter_sublist _) e
        omega
      rw [hzero]
      rw [if_neg (fun hh => hA hh.1), if_neg (fun hh => hA hh.1)]

theorem foldl_markNode_inv (g : Graph) (pr : Nat → Nat)
    (hND : ∀ e, e < g.numEdges → (g.edgeAt e).inputs.Nodup) :
    ∀ (ml : List Nat) (st : PlanState) (ms : List Nat),
      PlanInv g st ms → (∀ x ∈ ml, x ∉ ms) → ml.Nodup →
      PlanInv g (ml.foldl (markNode g pr) st) (ms ++ ml) := by
  intro ml
  induction ml with
  | nil =>
    intro st ms h _ _
    simpa using h
  | cons m ml ih =>
    intro st ms hinv hfresh hnd
    rw [List.foldl_cons]
    rw [List.nodup_cons] at hnd
    have h1 := markNode_inv g pr st ms m hND hinv (hfresh m (List.mem_cons_self _ _))
    have hfresh' : ∀ x ∈ ml, x ∉ ms ++ [m] := by
      intro x hx hc
      rcases List.mem_append.mp hc with h | h
      · exact hfresh x (List.mem_cons_of_mem _ hx) h
      · rw [List.mem_singleton] at h
        subst h
        exact hnd.1 hx
    have h2 := ih (markNode g pr st m) (ms ++ [m]) h1 hfresh' hnd.2
    rw [List.append_assoc] at h2
    simpa using h2

theorem foldl_markNode_flat (g : Graph) (pr : Nat → Nat) :
    ∀ (fs : List Nat) (st : PlanState),
      fs.foldl (edge_finished g pr) st = (marksOf g fs).foldl (markNode g pr) st := by
  intro fs
  induction fs with
  | nil => intro st; rfl
  | cons f fs ih =>
    intro st
    have hsplit : marksOf g (f :: fs) = (g.edgeAt f).outputs ++ marksOf g fs := by
      rw [marksOf, marksOf, List.flatMap_cons]
    rw [List.foldl_cons, ih, hsplit, List.foldl_append]
    rfl

theorem planInit_inv (g : Graph) : PlanInv g planInit [] := by
  constructor
  · intro n
    simp [planInit]
  · intro e
    show (List.count e [] = _)
    rw [List.count_nil]
    split
    · rename_i hcond
      obtain ⟨hA, hne, hall⟩ := hcond
      exfalso
      obtain ⟨m, hm⟩ := List.exists_mem_of_ne_nil _ hne
      exact (List.not_mem_nil m) (hall m hm)
    · rfl

theorem foldl_markNode_ready_mono (g : Graph) (pr : Nat → Nat) (l : List Nat) :
    ∀ (st : PlanState) (m : Nat), st.nodeReady m = true →
      ((l.foldl (markNode g pr) st).nodeReady m = true) := by
  induction l with
  | nil => intro st m h; exact h
  | cons n l ih =>
    intro st m h
    rw [List.foldl_cons]
    apply ih
    have hkeep := (foldl_pushIfReady g pr (waiting_for g n)
      { st with nodeReady := fun x => if x = n then true else st.nodeReady x }).1
    show (markNode g pr st n).nodeReady m = true
    rw [show (markNode g pr st n).nodeReady = _ from hkeep]
    show (if m = n then true else st.nodeReady m) = true
    by_cases hm : m = n <;> simp [hm, h]

/-- C5 (amended): over a run in which no output node is marked ready twice
(in particular no edge with outputs is finished twice and finished edges do
not share output nodes) and every edge's input list is duplicate-free, each
edge enters the ready queue at most once; and `edge_finished` only ever
flips ready flags from false to true. -/
theorem c5_ready_at_most_once (g : Graph) (pr : Nat → Nat) (fs : List Nat)
    (hND : ∀ e, e < g.numEdges → (g.edgeAt e).inputs.Nodup)
    (hmarks : (marksOf g fs).Nodup) :
    (∀ e, (planRun g pr fs).ready.count e ≤ 1) ∧
    (∀ st n m, st.nodeReady m = true → (edge_finished g pr st n).nodeReady m = true) := by
  constructor
  · intro e
    have h := foldl_markNode_inv g pr hND (marksOf g fs) planInit [] (planInit_inv g)
      (fun x _ => List.not_mem_nil x) hmarks
    have heq : planRun g pr fs = (marksOf g fs).foldl (markNode g pr) planInit :=
      foldl_markNode_flat g pr fs planInit
    rw [heq, h.2 e]
    split
    · exact Nat.le_refl _
    · exact Nat.zero_le _
  · intro st n m hm
    exact foldl_markNode_ready_mono g pr (g.edgeAt n).outputs st m hm

/-- C5 witness: on `gTwo`, finishing edge 0 once pushes edge 1 exactly once. -/
theorem c5_witness :
    (∀ e, e < gTwo.numEdges → (gTwo.edgeAt e).inputs.Nodup) ∧
    (marksOf gTwo [0]).Nodup ∧
    (∀ e, (planRun gTwo (fun _ => 0) [0]).ready.count e ≤ 1) :=
  ⟨by decide, by decide,
    (c5_ready_at_most_once gTwo (fun _ => 0) [0] (by decide) (by decide)).1⟩

/-! Helpers for the execution simulator (C9). -/

theorem set_none_eq (l : List (Option Nat)) : ∀ i, l.getD i none = none → l.set i none = l := by
  induction l with
  | nil => intro i _; rfl
  | cons a l ih =>
    intro i h
    cases i with
    | zero =>
      rw [List.getD_cons_zero] at h
      rw [h]
      rfl
    | succ i =>
      rw [List.getD_cons_succ] at h
      show a :: l.set i none = a :: l
      rw [ih i h]

theorem set_some_count (l : List (Option Nat)) :
    ∀ i e, l.getD i none = none → i < l.length →
      ∀ x, (l.set i (some e)).count (some x) =
        l.count (some x) + if x = e then 1 else 0 := by
  induction l with
  | nil => intro i e _ h; cases h
  | cons a l ih =>
    intro i e hget hlen x
    cases i with
    | zero =>
      rw [List.getD_cons_zero] at hget
      subst hget
      show ((some e :: l).count (some x)) = _
      rw [List.count_cons, List.count_cons]
      by_cases hx : x = e
      · subst hx
        simp
      · have hx' : ¬(e = x) := fun h => hx h.symm
        simp [hx, hx']
    | succ i =>
      rw [List.getD_cons_succ] at hget
      simp only [List.length_cons] at hlen
      show ((a :: l.set i (some e)).count (some x)) = _
      rw [List.count_cons, List.count_cons, ih i e hget (by omega) x]
      omega

theorem set_clear_count (l : List (Option Nat)) :
    ∀ i e, l.getD i none = some e →
      ∀ x, l.count (some x) = (l.set i none).count (some x) + if x = e then 1 else 0 := by
  induction l with
  | nil => intro i e h; cases i <;> cases h
  | cons a l ih =>
    intro i e hget x
    cases i with
    | zero =>
      rw [List.getD_cons_zero] at hget
      subst hget
      show ((some e :: l).count (some x)) = ((none :: l).count (some x)) + _
      rw [List.count_cons, List.count_cons]
      by_cases hx : x = e
      · subst hx
        simp
      · have hx' : ¬(e = x) := fun h => hx h.symm
        simp [hx, hx']
    | succ i =>
      rw [List.getD_cons_succ] at hget
      show ((a :: l).count (some x)) = ((a :: l.set i none).count (some x)) + if x = e then 1 else 0
      rw [List.count_cons, List.count_cons, ih i e hget x]
      omega

theorem minSome_cons (a : Option Nat) (l : List (Option Nat)) :
    minSome (a :: l) =
      match a, minSome l with
      | none, r => r
      | some v, none => some v
      | some v, some w => some (min v w) := rfl

theorem minSome_none (l : List (Option Nat)) : minSome l = none → ∀ v, some v ∉ l := by
  induction l with
  | nil => intro _ v hv; cases hv
  | cons a l ih =>
    intro h v hv
    rw [minSome_cons] at h
    cases a with
    | none =>
      rcases List.mem_cons.mp hv with h1 | h2
      · simp at h1
      · exact ih h v h2
    | some u =>
      cases hl : minSome l with
      | none => rw [hl] at h; simp at h
      | some w => rw [hl] at h; simp at h

theorem minSome_mem (l : List (Option Nat)) : ∀ m, minSome l = some m → some m ∈ l := by
  induction l with
  | nil => intro m h; cases h
  | cons a l ih =>
    intro m h
    rw [minSome_cons] at h
    cases a with
    | none => exact List.mem_cons_of_mem _ (ih m h)
    | some v =>
      cases hl : minSome l with
      | none =>
        rw [hl] at h
        simp at h
        subst h
        exact List.mem_cons_self _ _
      | some w =>
        rw [hl] at h
        simp at h
        subst h
        rcases Nat.le_total v w with hvw | hvw
        · rw [min_eq_left hvw]
          exact List.mem_cons_self _ _
        · rw [min_eq_right hvw]
          exact List.mem_cons_of_mem _ (ih w hl)

theorem minSome_le (l : List (Option Nat)) : ∀ m, minSome l = some m →
    ∀ v, some v ∈ l → m ≤ v := by
  induction l with
  | nil => intro m _ v hv; cases hv
  | cons a l ih =>
    intro m h v hv
    rw [minSome_cons] at h
    cases a with
    | none =>
      rcases List.mem_cons.mp hv with h1 | h2
      · simp at h1
      · exact ih m h v h2
    | some u =>
      cases hl : minSome l with
      | none =>
        rw [hl] at h
        simp at h
        subst h
        rcases List.mem_cons.mp hv with h1 | h2
        · simp at h1
          omega
        · exact absurd h2 (minSome_none l hl v)
      | some w =>
        rw [hl] at h
        simp at h
        subst h
        rcases List.mem_cons.mp hv with h1 | h2
        · simp at h1
          subst h1
          exact min_le_left _ _
        · exact le_trans (min_le_right _ _) (ih w hl v h2)

theorem getD_some_mem (l : List (Option Nat)) : ∀ i e, l.getD i none = some e → some e ∈ l := by
  induction l with
  | nil => intro i e h; cases i <;> cases h
  | cons a l ih =>
    intro i e h
    cases i with
    | zero =>
      rw [List.getD_cons_zero] at h
      rw [h]
      exact List.mem_cons_self _ _
    | succ i =>
      rw [List.getD_cons_succ] at h
      exact List.mem_cons_of_mem _ (ih i e h)

theorem marksOf_append (g : Graph) (fs : List Nat) (e : Nat) :
    marksOf g (fs ++ [e]) = marksOf g fs ++ (g.edgeAt e).outputs := by
  rw [marksOf, marksOf, List.flatMap_append]
  simp

theorem markNode_inv_off (g : Graph) (pr : Nat → Nat) (st : PlanState) (ms : List Nat) (n : Nat)
    (off : Nat → Nat)
    (hND : ∀ e, e < g.numEdges → (g.edgeAt e).inputs.Nodup)
    (hrd : ∀ m, st.nodeReady m = true ↔ m ∈ ms)
    (hcnt : ∀ e, st.ready.count e + off e =
      if e < g.numEdges ∧ (g.edgeAt e).inputs ≠ [] ∧ ∀ m ∈ (g.edgeAt e).inputs, m ∈ ms
      then 1 else 0)
    (hn : n ∉ ms) :
    (∀ m, (markNode g pr st n).nodeReady m = true ↔ m ∈ ms ++ [n]) ∧
    (∀ e, (markNode g pr st n).ready.count e + off e =
      if e < g.numEdges ∧ (g.edgeAt e).inputs ≠ [] ∧ ∀ m ∈ (g.edgeAt e).inputs, m ∈ ms ++ [n]
      then 1 else 0) := by
  have hrd' : ∀ m, (if m = n then true else st.nodeReady m) = true ↔ m ∈ ms ++ [n] := by
    intro m
    by_cases hm : m = n
    · subst hm
      simp
    · simp [hm, hrd m, List.mem_append]
  obtain ⟨hkeep, hcount⟩ := foldl_pushIfReady g pr (waiting_for g n)
    { st with nodeReady := fun m => if m = n then true else st.nodeReady m }
  constructor
  · intro m
    show (markNode g pr st n).nodeReady m = true ↔ _
    rw [show (markNode g pr st n).nodeReady = _ from hkeep]
    exact hrd' m
  · intro e
    rw [show (markNode g pr st n).ready.count e = _ from hcount e]
    rw [show ({ st with nodeReady := fun m => if m = n then true else st.nodeReady m } :
      PlanState).ready = st.ready from rfl]
    have hbase := hcnt e
    have hair_iff : all_inputs_ready g
        (fun m => if m = n then true else st.nodeReady m) e = true ↔
        ∀ m ∈ (g.edgeAt e).inputs, m ∈ ms ++ [n] := by
      rw [all_inputs_ready, List.all_eq_true]
      constructor
      · intro h m hm
        exact (hrd' m).mp (h m hm)
      · intro h m hm
        exact (hrd' m).mpr (h m hm)
    by_cases hA : e < g.numEdges
    · by_cases hmemn : n ∈ (g.edgeAt e).inputs
      · have hone : (g.edgeAt e).inputs.count n = 1 :=
          List.count_eq_one_of_mem (hND e hA) hmemn
        have hold : ¬(e < g.numEdges ∧ (g.edgeAt e).inputs ≠ [] ∧
            ∀ m ∈ (g.edgeAt e).inputs, m ∈ ms) := by
          rintro ⟨-, -, hall⟩
          exact hn (hall n hmemn)
        rw [if_neg hold] at hbase
        have hne : (g.edgeAt e).inputs ≠ [] := fun hnil => by
          rw [hnil] at hmemn
          cases hmemn
        by_cases hair : all_inputs_ready g
            (fun m => if m = n then true else st.nodeReady m) e = true
        · have hF : ((waiting_for g n).filter fun e' => all_inputs_ready g
              (fun m => if m = n then true else st.nodeReady m) e').count e = 1 := by
            rw [List.count_filter hair, waiting_for_count, if_pos hA, hone]
          rw [hF, if_pos ⟨hA, hne, hair_iff.mp hair⟩]
          omega
        · have hzero : ((waiting_for g n).filter fun e' => all_inputs_ready g
              (fun m => if m = n then true else st.nodeReady m) e').count e = 0 := by
            rw [List.count_eq_zero]
            intro hmem
            exact hair (List.of_mem_filter hmem)
          rw [hzero, if_neg]
          · omega
          · rintro ⟨-, -, hall⟩
            exact hair (hair_iff.mpr hall)
      · have hzero : ((waiting_for g n).filter fun e' => all_inputs_ready g
            (fun m => if m = n then true else st.nodeReady m) e').count e = 0 := by
          have h0 : (waiting_for g n).count e = 0 := by
            rw [waiting_for_count, if_pos hA, List.count_eq_zero.mpr hmemn]
          have hsub : ((waiting_for g n).filter fun e' => all_inputs_ready g
              (fun m => if m = n then true else st.nodeReady m) e').count e ≤
                (waiting_for g n).count e :=
            List.Sublist.count_le (List.filter_sublist _) e
          omega
        rw [hzero]
        have hcond : (e < g.numEdges ∧ (g.edgeAt e).inputs ≠ [] ∧
              ∀ m ∈ (g.edgeAt e).inputs, m ∈ ms) ↔
            (e < g.numEdges ∧ (g.edgeAt e).inputs ≠ [] ∧
              ∀ m ∈ (g.edgeAt e).inputs, m ∈ ms ++ [n]) := by
          constructor
          · rintro ⟨h1, h2, h3⟩
            exact ⟨h1, h2, fun m hm => List.mem_append_left _ (h3 m hm)⟩
          · rintro ⟨h1, h2, h3⟩
            refine ⟨h1, h2, fun m hm => ?_⟩
            rcases List.mem_append.mp (h3 m hm) with h | h
            · exact h
            · rw [List.mem_singleton] at h
              subst h
              exact absurd hm hmemn
        by_cases hc : e < g.numEdges ∧ (g.edgeAt e).inputs ≠ [] ∧
            ∀ m ∈ (g.edgeAt e).inputs, m ∈ ms
        · rw [if_pos hc] at hbase
          rw [if_pos (hcond.mp hc)]
          omega
        · rw [if_neg hc] at hbase
          rw [if_neg (fun hh => hc (hcond.mpr hh))]
          omega
    · have hzero : ((waiting_for g n).filter fun e' => all_inputs_ready g
          (fun m => if m = n then true else st.nodeReady m) e').count e = 0 := by
        have h0 : (waiting_for g n).count e = 0 := by
          rw [waiting_for_count, if_neg hA]
        have hsub : ((waiting_for g n).filter fun e' => all_inputs_ready g
            (fun m => if m = n then true else st.nodeReady m) e').count e ≤
              (waiting_for g n).count e :=
          List.Sublist.count_le (List.filter_sublist _) e
        omega
      rw [hzero]
      rw [if_neg (fun hh => hA hh.1)] at hbase
      rw [if_neg (fun hh => hA hh.1)]
      omega

theorem foldl_markNode_inv_off (g : Graph) (pr : Nat → Nat) (off : Nat → Nat)
    (hND : ∀ e, e < g.numEdges → (g.edgeAt e).inputs.Nodup) :
    ∀ (ml : List Nat) (st : PlanState) (ms : List Nat),
      (∀ m, st.nodeReady m = true ↔ m ∈ ms) →
      (∀ e, st.ready.count e + off e =
        if e < g.numEdges ∧ (g.edgeAt e).inputs ≠ [] ∧ ∀ m ∈ (g.edgeAt e).inputs, m ∈ ms
        then 1 else 0) →
      (∀ x ∈ ml, x ∉ ms) → ml.Nodup →
      (∀ m, (ml.foldl (markNode g pr) st).nodeReady m = true ↔ m ∈ ms ++ ml) ∧
      (∀ e, (ml.foldl (markNode g pr) st).ready.count e + off e =
        if e < g.numEdges ∧ (g.edgeAt e).inputs ≠ [] ∧ ∀ m ∈ (g.edgeAt e).inputs, m ∈ ms ++ ml
        then 1 else 0) := by
  intro ml
  induction ml with
  | nil =>
    intro st ms h1 h2 _ _
    constructor
    · intro m
      simpa using h1 m
    · intro e
      simpa using h2 e
  | cons m ml ih =>
    intro st ms h1 h2 hfresh hnd
    rw [List.foldl_cons]
    rw [List.nodup_cons] at hnd
    obtain ⟨g1, g2⟩ := markNode_inv_off g pr st ms m off hND h1 h2
      (hfresh m (List.mem_cons_self _ _))
    have hfresh' : ∀ x ∈ ml, x ∉ ms ++ [m] := by
      intro x hx hc
      rcases List.mem_append.mp hc with h | h
      · exact hfresh x (List.mem_cons_of_mem _ hx) h
      · rw [List.mem_singleton] at h
        subst h
        exact hnd.1 hx
    obtain ⟨k1, k2⟩ := ih (markNode g pr st m) (ms ++ [m]) g1 g2 hfresh' hnd.2
    constructor
    · intro x
      rw [k1 x, List.append_assoc]
      simp
    · intro e
      rw [k2 e]
      have : (ms ++ [m]) ++ ml = ms ++ m :: ml := by
        rw [List.append_assoc]
        simp
      rw [this]

theorem count_cons_ite (a x : Nat) (l : List Nat) :
    (a :: l).count x = l.count x + if x = a then 1 else 0 := by
  rw [List.count_cons]
  by_cases h : x = a
  · subst h
    simp
  · have h' : ¬(a = x) := fun hh => h hh.symm
    simp [h, h']

theorem count_append_single (x e : Nat) (l : List Nat) :
    (l ++ [e]).count x = l.count x + if x = e then 1 else 0 := by
  rw [List.count_append, List.count_singleton]
  by_cases h : x = e
  · subst h
    simp
  · have h' : ¬(e = x) := fun hh => h hh.symm
    simp [h, h']

theorem assignStep_inv (g : Graph) (nj : Nat) (st : ExecState) (i e : Nat) (q : List Nat)
    (hai : st.activeEdges.getD i none = none) (hq : st.plan.ready = e :: q)
    (hi : i < nj) (hinv : ExecInv g nj st) :
    ExecInv g nj
      { plan := { st.plan with ready := q },
        activeEdges := st.activeEdges.set i (some e),
        completion := st.completion.set i (some (st.current_time + g.actualAt e)),
        current_time := st.current_time,
        start_times := st.start_times ++ [(e, st.current_time)] } := by
  obtain ⟨hlen1, hlen2, hcb, hsb, hpair, fin, hrd, hmnd, hled, hsplit⟩ := hinv
  refine ⟨?_, ?_, ?_, ?_, ?_, fin, hrd, hmnd, ?_, ?_⟩
  · rw [List.length_set]
    exact hlen1
  · rw [List.length_set]
    exact hlen2
  · intro o ho v hov
    rcases List.mem_or_eq_of_mem_set ho with h | h
    · exact hcb o h v hov
    · rw [h] at hov
      injection hov with hov
      show st.current_time ≤ v
      omega
  · intro p hp
    rcases List.mem_append.mp hp with h | h
    · exact hsb p h
    · rw [List.mem_singleton] at h
      subst h
      exact Nat.le_refl _
  · rw [List.map_append]
    rw [List.pairwise_append]
    refine ⟨hpair, List.pairwise_singleton _ _, ?_⟩
    intro a ha b hb
    rw [List.map_singleton, List.mem_singleton] at hb
    subst hb
    obtain ⟨p, hp, hpa⟩ := List.mem_map.mp ha
    subst hpa
    exact hsb p hp
  · intro x
    have h1 := hled x
    rw [hq, count_cons_ite] at h1
    rw [List.map_append]
    show q.count x + ((st.start_times.map Prod.fst) ++ [e]).count x = _
    rw [count_append_single]
    omega
  · intro x
    have h1 := hsplit x
    rw [List.map_append]
    show ((st.start_times.map Prod.fst) ++ [e]).count x = _
    rw [count_append_single, set_some_count st.activeEdges i e hai (by omega) x]
    omega

theorem assignSlots_inv (g : Graph) (nj : Nat) :
    ∀ (l : List Nat) (st : ExecState), (∀ i ∈ l, i < nj) → ExecInv g nj st →
      ExecInv g nj (assignSlots g st l) ∧
      (assignSlots g st l).current_time = st.current_time := by
  intro l
  induction l with
  | nil => intro st _ h; exact ⟨h, rfl⟩
  | cons i l ih =>
    intro st hl h
    cases hai : st.activeEdges.getD i none with
    | some e =>
      have heq : assignSlots g st (i :: l) = assignSlots g st l := by
        simp only [assignSlots, hai]
      rw [heq]
      exact ih st (fun j hj => hl j (List.mem_cons_of_mem _ hj)) h
    | none =>
      cases hq : st.plan.ready with
      | nil =>
        have heq : assignSlots g st (i :: l) = st := by
          simp only [assignSlots, hai, hq]
        rw [heq]
        exact ⟨h, rfl⟩
      | cons e q =>
        have heq : assignSlots g st (i :: l) = assignSlots g
            { plan := { st.plan with ready := q },
              activeEdges := st.activeEdges.set i (some e),
              completion := st.completion.set i (some (st.current_time + g.actualAt e)),
              current_time := st.current_time,
              start_times := st.start_times ++ [(e, st.current_time)] } l := by
          simp only [assignSlots, hai, hq]
        rw [heq]
        have hstep := assignStep_inv g nj st i e q hai hq (hl i (List.mem_cons_self _ _)) h
        obtain ⟨h1, h2⟩ := ih _ (fun j hj => hl j (List.mem_cons_of_mem _ hj)) hstep
        exact ⟨h1, h2⟩

theorem execAdvance_inv (g : Graph) (nj : Nat) (st : ExecState) (hinv : ExecInv g nj st) :
    ExecInv g nj (execAdvance st) ∧ st.current_time ≤ (execAdvance st).current_time := by
  obtain ⟨hlen1, hlen2, hcb, hsb, hpair, fin, hrd, hmnd, hled, hsplit⟩ := hinv
  cases hm : minSome st.completion with
  | none =>
    have heq : execAdvance st = { st with current_time := st.current_time } := by
      rw [execAdvance, hm]
      rfl
    rw [heq]
    exact ⟨⟨hlen1, hlen2, hcb, hsb, hpair, fin, hrd, hmnd, hled, hsplit⟩, Nat.le_refl _⟩
  | some m =>
    have heq : execAdvance st = { st with current_time := m } := by
      rw [execAdvance, hm]
      rfl
    rw [heq]
    have hup : st.current_time ≤ m := hcb _ (minSome_mem _ m hm) m rfl
    refine ⟨⟨hlen1, hlen2, ?_, ?_, hpair, fin, hrd, hmnd, hled, hsplit⟩, hup⟩
    · intro o ho v hov
      show m ≤ v
      subst hov
      exact minSome_le _ m hm v ho
    · intro q hq
      show q.2 ≤ m
      exact le_trans (hsb q hq) hup

theorem completeStep_inv (g : Graph) (pr : Nat → Nat) (nj : Nat) (st : ExecState) (i : Nat)
    (hgood : GoodGraph g) (hinv : ExecInv g nj st) :
    ExecInv g nj
      { st with
        plan :=
          (match st.activeEdges.getD i none with
           | some e => edge_finished g pr st.plan e
           | none => st.plan),
        activeEdges := st.activeEdges.set i none,
        completion := st.completion.set i none } := by
  obtain ⟨hlen1, hlen2, hcb, hsb, hpair, fin, hrd, hmnd, hled, hsplit⟩ := hinv
  cases hai : st.activeEdges.getD i none with
  | none =>
    rw [set_none_eq st.activeEdges i hai]
    refine ⟨hlen1, ?_, ?_, hsb, hpair, fin, hrd, hmnd, hled, hsplit⟩
    · rw [List.length_set]
      exact hlen2
    · intro o ho v hov
      rcases List.mem_or_eq_of_mem_set ho with h | h
      · exact hcb o h v hov
      · rw [h] at hov
        cases hov
  | some e =>
    -- the finished edge: it is running exactly once and was started exactly once
    have hmemact : some e ∈ st.activeEdges := getD_some_mem _ i e hai
    have hactpos : 0 < st.activeEdges.count (some e) := List.count_pos_iff.mpr hmemact
    have hstart := hsplit e
    have hledg := hled e
    have hcond : e < g.numEdges ∧ (g.edgeAt e).inputs ≠ [] ∧
        ∀ n ∈ (g.edgeAt e).inputs, n ∈ marksOf g fin := by
      by_contra hc
      rw [if_neg hc] at hledg
      omega
    have heN : e < g.numEdges := hcond.1
    rw [if_pos hcond] at hledg
    have hfin0 : fin.count e = 0 := by omega
    have hnotfin : e ∉ fin := List.count_eq_zero.mp hfin0
    -- every already-finished edge is a real edge
    have hfinN : ∀ e' ∈ fin, e' < g.numEdges := by
      intro e' he'
      have h1 := hled e'
      have h2 := hsplit e'
      have h3 : 0 < fin.count e' := List.count_pos_iff.mpr he'
      by_contra hc
      rw [if_neg (fun hh => hc hh.1)] at h1
      omega
    -- the outputs of e are fresh
    have hfresh : ∀ x ∈ (g.edgeAt e).outputs, x ∉ marksOf g fin := by
      intro x hx hmem
      obtain ⟨e', he', hx'⟩ := List.mem_flatMap.mp hmem
      have hne : e ≠ e' := fun hh => hnotfin (hh ▸ he')
      exact hgood.2.2 e e' heN (hfinN e' he') hne x hx hx'
    have hond : (g.edgeAt e).outputs.Nodup := hgood.2.1 e heN
    obtain ⟨g1, g2⟩ := foldl_markNode_inv_off g pr
      (fun x => (st.start_times.map Prod.fst).count x) hgood.1
      (g.edgeAt e).outputs st.plan (marksOf g fin) hrd hled hfresh hond
    refine ⟨?_, ?_, ?_, hsb, hpair, fin ++ [e], ?_, ?_, ?_, ?_⟩
    · rw [List.length_set]
      exact hlen1
    · rw [List.length_set]
      exact hlen2
    · intro o ho v hov
      rcases List.mem_or_eq_of_mem_set ho with h | h
      · exact hcb o h v hov
      · rw [h] at hov
        cases hov
    · intro n
      show (edge_finished g pr st.plan e).nodeReady n = true ↔ _
      rw [marksOf_append]
      exact g1 n
    · rw [marksOf_append]
      refine List.Nodup.append hmnd hond ?_
      intro a ha hb
      exact hfresh a hb ha
    · intro x
      show (edge_finished g pr st.plan e).ready.count x + _ = _
      rw [marksOf_append]
      exact g2 x
    · intro x
      have h1 := hsplit x
      have h2 := set_clear_count st.activeEdges i e hai x
      rw [count_append_single]
      show (st.start_times.map Prod.fst).count x =
        (st.activeEdges.set i none).count (some x) + _
      omega

theorem completeSlots_inv (g : Graph) (pr : Nat → Nat) (nj : Nat) (hgood : GoodGraph g) :
    ∀ (l : List Nat) (st : ExecState), ExecInv g nj st →
      ExecInv g nj (completeSlots g pr st l) ∧
      (completeSlots g pr st l).current_time = st.current_time := by
  intro l
  induction l with
  | nil => intro st h; exact ⟨h, rfl⟩
  | cons i l ih =>
    intro st h
    by_cases hc : st.completion.getD i none = some st.current_time
    · have heq : completeSlots g pr st (i :: l) = completeSlots g pr
          { st with
            plan :=
              (match st.activeEdges.getD i none with
               | some e => edge_finished g pr st.plan e
               | none => st.plan),
            activeEdges := st.activeEdges.set i none,
            completion := st.completion.set i none } l := by
        simp only [completeSlots, if_pos hc]
      rw [heq]
      exact ih _ (completeStep_inv g pr nj st i hgood h)
    · have heq : completeSlots g pr st (i :: l) = completeSlots g pr st l := by
        simp only [completeSlots, if_neg hc]
      rw [heq]
      exact ih st h

theorem execInit_inv (g : Graph) (nj : Nat) :
    ExecInv g nj
      { plan := planInit,
        activeEdges := List.replicate nj none,
        completion := List.replicate nj none,
        current_time := 0,
        start_times := [] } := by
  refine ⟨List.length_replicate _ _, List.length_replicate _ _, ?_, ?_, ?_, [], ?_, ?_, ?_, ?_⟩
  · intro o ho v hov
    rw [List.eq_of_mem_replicate ho] at hov
    cases hov
  · intro q hq
    cases hq
  · exact List.Pairwise.nil
  · intro n
    show planInit.nodeReady n = true ↔ n ∈ marksOf g []
    rw [show planInit.nodeReady n = false from rfl]
    simp [marksOf]
  · show (marksOf g []).Nodup
    simp [marksOf]
  · intro e
    show ([] : List Nat).count e + (([] : List (Nat × Nat)).map Prod.fst).count e = _
    rw [if_neg]
    · rfl
    · rintro ⟨-, hne, hall⟩
      match hin : (g.edgeAt e).inputs with
      | [] => exact hne hin
      | m :: _ =>
        have hm := hall m (by rw [hin]; exact List.mem_cons_self _ _)
        simp [marksOf] at hm
  · intro e
    have hno : (some e) ∉ List.replicate nj (none : Option Nat) := by
      intro hmem
      cases List.eq_of_mem_replicate hmem
    show (([] : List (Nat × Nat)).map Prod.fst).count e = _
    rw [List.count_eq_zero.mpr hno]
    rfl

theorem executeLoop_inv (g : Graph) (pr : Nat → Nat) (nj : Nat) (hgood : GoodGraph g) :
    ∀ (fuel : Nat) (st : ExecState), ExecInv g nj st →
      ∀ tr, executeLoop g pr nj fuel st = some tr →
        (tr.map Prod.fst).Nodup ∧ (tr.map Prod.snd).Pairwise (· ≤ ·) := by
  intro fuel
  induction fuel with
  | zero => intro st _ tr h; cases h
  | succ fuel ih =>
    intro st hinv tr h
    obtain ⟨hainv, -⟩ := assignSlots_inv g nj (List.range nj) st
      (fun i hi => List.mem_range.mp hi) hinv
    rw [show executeLoop g pr nj (fuel+1) st =
      (if execDone (assignSlots g st (List.range nj))
       then some (assignSlots g st (List.range nj)).start_times
       else executeLoop g pr nj fuel
         (execComplete g pr nj (execAdvance (assignSlots g st (List.range nj)))))
      from rfl] at h
    by_cases hd : execDone (assignSlots g st (List.range nj)) = true
    · rw [if_pos hd] at h
      obtain ⟨-, -, -, -, hpair, fin, -, -, hled, -⟩ := hainv
      injection h with h
      subst h
      constructor
      · rw [List.nodup_iff_count_le_one]
        intro e
        have h1 := hled e
        split at h1 <;> omega
      · exact hpair
    · rw [if_neg hd] at h
      obtain ⟨hadv, -⟩ := execAdvance_inv g nj _ hainv
      obtain ⟨hcomp, -⟩ := completeSlots_inv g pr nj hgood (List.range nj) _ hadv
      exact ih _ hcomp tr h

/-- C9: on any well-formed graph, under an execution invariant that holds at
construction and is preserved by the loop, one iteration of `Plan.execute`'s
scheduling loop never decreases the virtual clock; and whenever `execute`
terminates, the returned start-time record names each edge at most once and
its times are non-decreasing in assignment order. -/
theorem c9_execute_invariants (g : Graph) (pr : Nat → Nat) (nj : Nat)
    (hgood : GoodGraph g) (_hnj : 1 ≤ nj) :
    (∀ st : ExecState, ExecInv g nj st →
      st.current_time ≤
        (execComplete g pr nj (execAdvance (execAssign g nj st))).current_time) ∧
    (∀ fuel tr, execute g pr nj fuel = some tr →
      (tr.map Prod.fst).Nodup ∧ (tr.map Prod.snd).Pairwise (· ≤ ·)) := by
  constructor
  · intro st hinv
    obtain ⟨hainv, haclk⟩ := assignSlots_inv g nj (List.range nj) st
      (fun i hi => List.mem_range.mp hi) hinv
    obtain ⟨hadv, hle⟩ := execAdvance_inv g nj _ hainv
    obtain ⟨-, hcclk⟩ := completeSlots_inv g pr nj hgood (List.range nj) _ hadv
    calc st.current_time
        = (assignSlots g st (List.range nj)).current_time := haclk.symm
      _ ≤ (execAdvance (assignSlots g st (List.range nj))).current_time := hle
      _ = _ := hcclk.symm
  · intro fuel tr h
    exact executeLoop_inv g pr nj hgood fuel _ (execInit_inv g nj) tr h

theorem goodGraph_gTwo : GoodGraph gTwo := by
  refine ⟨?_, ?_, ?_⟩
  · intro e he
    have h2 : e < 2 := he
    interval_cases e <;> decide
  · intro e he
    have h2 : e < 2 := he
    interval_cases e <;> decide
  · intro e1 e2 h1 h2 hne n hn
    have h1' : e1 < 2 := h1
    have h2' : e2 < 2 := h2
    interval_cases e1 <;> interval_cases e2
    · exact absurd rfl hne
    · exact List.not_mem_nil n
    · exact absurd hn (List.not_mem_nil n)
    · exact absurd rfl hne

theorem c9_witness :
    GoodGraph gTwo ∧ 1 ≤ 1 ∧ execute gTwo (fun _ => 0) 1 5 = some [] ∧
    (([] : List (Nat × Nat)).map Prod.fst).Nodup ∧
    (([] : List (Nat × Nat)).map Prod.snd).Pairwise (· ≤ ·) :=
  ⟨goodGraph_gTwo, Nat.le_refl 1, rfl,
    (c9_execute_invariants gTwo (fun _ => 0) 1 goodGraph_gTwo (Nat.le_refl 1)).2 5 [] rfl⟩
